import Mathlib

/-!
Verification of the matching engine of `finddiffentsing.py`.

The Python source is shallowly embedded: strings are lists of Unicode
characters (`List Char`), Python floats are modelled as rationals (`ℚ`),
and the regular-expression operations of the source are translated into
explicit recursive functions with Python `re` semantics (leftmost,
non-overlapping substitution; lazy/greedy quantifiers as backtracking).

Character model: the character classes of Python's `re` module (`\w`,
`\s`) and `str.lower` are modelled exactly on ASCII, the Latin-1
supplement and the CJK ideograph block U+4E00–U+9FFF; characters of
other scripts are treated as non-word characters.  All concrete inputs
used in theorems below stay inside this modelled repertoire.
-/

namespace FindDiffentSong

/-- Strings of the Python source, as lists of Unicode code points. -/
abbrev Str := List Char

/-- Model of Python regex `\s` (and `str.isspace`): ASCII whitespace,
the C1/Latin-1 spaces and the Unicode space separators. -/
def pyIsSpace (c : Char) : Bool :=
  c = ' ' || c = '\t' || c = '\n' || c = '\r' ||
  c.val = 0x0B || c.val = 0x0C ||
  (0x1C ≤ c.val && c.val ≤ 0x1F) || c.val = 0x85 || c.val = 0xA0 ||
  c.val = 0x1680 || (0x2000 ≤ c.val && c.val ≤ 0x200A) ||
  c.val = 0x2028 || c.val = 0x2029 || c.val = 0x202F ||
  c.val = 0x205F || c.val = 0x3000

/-- The CJK ideograph range `一-鿿` used by the source's regexes. -/
def pyIsCJK (c : Char) : Bool :=
  0x4E00 ≤ c.val && c.val ≤ 0x9FFF

/-- Model of Python regex `\w` on the modelled repertoire: ASCII
alphanumerics and underscore, the Latin-1 letters, and CJK ideographs. -/
def pyIsWordChar (c : Char) : Bool :=
  c.isAlphanum || c = '_' ||
  c.val = 0xAA || c.val = 0xB5 || c.val = 0xBA ||
  (0xC0 ≤ c.val && c.val ≤ 0xFF && c.val ≠ 0xD7 && c.val ≠ 0xF7) ||
  pyIsCJK c

/-- ASCII upper-case letters. -/
def isUpperAscii (c : Char) : Bool :=
  'A' ≤ c && c ≤ 'Z'

/-- Model of Python `str.lower` on the modelled repertoire: ASCII and
Latin-1 upper-case letters shift down by 32, everything else is fixed. -/
def pyLower (c : Char) : Char :=
  if 'A' ≤ c ∧ c ≤ 'Z' then Char.ofNat (c.toNat + 32)
  else if 0xC0 ≤ c.val ∧ c.val ≤ 0xDE ∧ c.val ≠ 0xD7 then Char.ofNat (c.toNat + 32)
  else c

/-- `leadsWith pat s` holds when `pat` is an initial segment of `s`. -/
def leadsWith : Str → Str → Bool
  | [], _ => true
  | _ :: _, [] => false
  | a :: as, b :: bs => a = b && leadsWith as bs

/-- `endsWith pat s` holds when `pat` is a final segment of `s`
(Python `str.endswith`). -/
def endsWith (pat s : Str) : Bool :=
  leadsWith pat.reverse s.reverse

/-- Index of the first occurrence of `sep` in `s` (Python `in` / `find`). -/
def findSubstr (sep : Str) : Str → Option Nat
  | [] => if sep = [] then some 0 else none
  | c :: cs =>
    if leadsWith sep (c :: cs) then some 0
    else (findSubstr sep cs).map (· + 1)

/-- Python `s.split(sep, 1)` when `sep` occurs: the parts before and
after the first occurrence. -/
def splitOnce (sep s : Str) : Option (Str × Str) :=
  (findSubstr sep s).map (fun i => (s.take i, s.drop (i + sep.length)))

/-- Drop trailing whitespace (the right half of Python `str.strip`). -/
def dropTrailingWS : Str → Str
  | [] => []
  | c :: cs =>
    let rest := dropTrailingWS cs
    if rest = [] ∧ pyIsSpace c then [] else c :: rest

/-- Model of Python `str.strip`. -/
def pyStrip (s : Str) : Str :=
  dropTrailingWS (s.dropWhile pyIsSpace)

/-- `re.sub(r'\s+', ' ', ·)`: collapse every maximal whitespace run to
a single ASCII space.  The flag records whether the previous character
belonged to a (already replaced) whitespace run. -/
def collapseAux : Bool → Str → Str
  | _, [] => []
  | inRun, c :: cs =>
    if pyIsSpace c then
      if inRun then collapseAux true cs
      else ' ' :: collapseAux true cs
    else c :: collapseAux false cs

/-- `re.sub(r'\s+', ' ', ·)` on a whole string. -/
def collapseWS (s : Str) : Str :=
  collapseAux false s

/-- Bracket-opening characters of the regex `[\(\[].*?[\)\]]`. -/
def isOpener (c : Char) : Bool := c = '(' || c = '['

/-- Bracket-closing characters of the regex `[\(\[].*?[\)\]]`. -/
def isCloser (c : Char) : Bool := c = ')' || c = ']'

/-- Position of the first closing bracket reachable by `.*?`
(`.` does not match a newline). -/
def findCloser : Str → Option Nat
  | [] => none
  | c :: cs =>
    if isCloser c then some 0
    else if c = '\n' then none
    else (findCloser cs).map (· + 1)

/-- `re.sub(r'[\(\[].*?[\)\]]', '', ·)`: remove every leftmost
non-overlapping bracketed span (shortest closer wins).  The fuel bounds
the number of scan steps; every step consumes at least one character,
so fuel equal to the string length is always sufficient. -/
def removeBracketsFuel : Nat → Str → Str
  | 0, _ => []
  | _, [] => []
  | fuel + 1, c :: cs =>
    if isOpener c then
      match findCloser cs with
      | some i => removeBracketsFuel fuel (cs.drop (i + 1))
      | none => c :: removeBracketsFuel fuel cs
    else c :: removeBracketsFuel fuel cs

/-- Bracket removal on a whole string. -/
def removeBrackets (s : Str) : Str :=
  removeBracketsFuel s.length s

/-- One pattern character of a version-marker regex: in the source the
markers are interpolated unescaped, so a `'.'` is the regex
any-character (except newline) metacharacter. -/
def mcharMatch (p c : Char) : Bool :=
  if p = '.' then c ≠ '\n' else p = c

/-- Whether a marker pattern literally matches a prefix of `s`. -/
def patMatches : Str → Str → Bool
  | [], _ => true
  | _ :: _, [] => false
  | p :: ps, c :: cs => mcharMatch p c && patMatches ps cs

/-- `\b`: a word boundary sits between two positions exactly when one
side is a word character and the other is not (ends count as non-word). -/
def boundaryB (a b : Option Char) : Bool :=
  xor (a.elim false pyIsWordChar) (b.elim false pyIsWordChar)

/-- Whether `\b pat \b` matches at the current position of `s`, where
`prev` is the character just before that position in the original string. -/
def markerHere (pat : Str) (prev : Option Char) (s : Str) : Bool :=
  patMatches pat s &&
  boundaryB prev s.head? &&
  boundaryB (s.take pat.length).getLast? (s.drop pat.length).head?

/-- `re.sub(rf'\b{marker}\b', '', ·)` for the marker pattern
`p :: ps`: scan left to right, removing each match and resuming after
it.  Every step consumes at least one character, so fuel equal to the
string length is always sufficient. -/
def subMarkerFuel (p : Char) (ps : Str) : Nat → Option Char → Str → Str
  | 0, _, _ => []
  | _, _, [] => []
  | fuel + 1, prev, c :: cs =>
    if markerHere (p :: ps) prev (c :: cs) then
      subMarkerFuel p ps fuel ((c :: cs).take (ps.length + 1)).getLast?
        (cs.drop ps.length)
    else c :: subMarkerFuel p ps fuel (some c) cs

/-- One marker substitution pass on a whole string. -/
def subMarker (p : Char) (ps : Str) (prev : Option Char) (s : Str) : Str :=
  subMarkerFuel p ps s.length prev s

/-- The version markers of the source, in source order.  The `'.'`
characters are unescaped in the Python regexes. -/
def version_markers : List Str :=
  ["live".data, "ver.".data, "version".data, "remix".data, "acoustic".data,
   "instrumental".data, "demo".data, "edit".data, "mix".data, "feat.".data,
   "ft.".data]

/-- Apply every marker substitution in source order. -/
def removeMarkers (s : Str) : Str :=
  version_markers.foldl
    (fun t pat =>
      match pat with
      | [] => t
      | p :: ps => subMarker p ps none t)
    s

/-- `re.sub(r'[^\w一-鿿\s]', ' ', ·)`: replace every character
that is neither a word character, a CJK ideograph nor whitespace. -/
def cleanupChars (s : Str) : Str :=
  s.map (fun c => if pyIsWordChar c || pyIsCJK c || pyIsSpace c then c else ' ')

/-- `deep_clean_text` of the source: lowercase and strip, remove
bracketed spans, remove version markers, replace special characters by
spaces, collapse whitespace and strip. -/
def deep_clean_text (s : Str) : Str :=
  if s = [] then []
  else
    pyStrip (collapseWS (cleanupChars (removeMarkers (removeBrackets
      (pyStrip (s.map pyLower))))))

/-! ## Similarity scorer (`calculate_similarity` and its inner DP) -/

/-- Cost of the substitution entry `previous_row[j] + (c1 != c2)`. -/
def edCost (a b : Char) : Nat :=
  if a = b then 0 else 1

/-- Inner loop of the source's `levenshtein_distance`: given the
remaining characters of `s2`, the matching tail of the previous row and
the value just placed in the current row, produce the rest of the
current row (`insertions`/`deletions`/`substitutions` minimum). -/
def levRow (c1 : Char) : Str → List Nat → Nat → List Nat
  | c2 :: t, p0 :: p1 :: ps, cur =>
    let v := min (p1 + 1) (min (cur + 1) (p0 + edCost c1 c2))
    v :: levRow c1 t (p1 :: ps) v
  | _, _, _ => []

/-- Outer loop of the DP: one row per character of `s1`; the row for
index `i` starts with `i + 1`. -/
def levRows (s2 : Str) : Str → List Nat → Nat → List Nat
  | [], prev, _ => prev
  | c1 :: rest, prev, i =>
    levRows s2 rest ((i + 1) :: levRow c1 s2 prev (i + 1)) (i + 1)

/-- Body of the source's `levenshtein_distance` after the argument swap:
empty second string short-circuits, otherwise run the row DP starting
from `range(len(s2) + 1)` and return the last entry of the final row. -/
def lev_core (s1 s2 : Str) : Nat :=
  if s2.length = 0 then s1.length
  else (levRows s2 s1 (List.range (s2.length + 1)) 0).getLastD 0

/-- `levenshtein_distance` of the source: swap so that the first
argument is the longer string, then run the DP. -/
def levenshtein_distance (s1 s2 : Str) : Nat :=
  if s1.length < s2.length then lev_core s2 s1 else lev_core s1 s2

/-- `calculate_similarity` of the source, with Python floats modelled as
rationals: 0 if either string is empty, 1 on equality, otherwise
`1 - distance / max_len` (the `max_len == 0` branch of the source is
kept although it is unreachable). -/
def calculate_similarity (str1 str2 : Str) : ℚ :=
  if str1 = [] ∨ str2 = [] then 0
  else if str1 = str2 then 1
  else
    let max_len := max str1.length str2.length
    if max_len = 0 then 1
    else 1 - (levenshtein_distance str1 str2 : ℚ) / (max_len : ℚ)

/-- Reference definition for the spec's "classic edit distance":
unit-cost insertion, deletion and substitution, by the textbook
recurrence.  The row DP of the source is proved equal to it below. -/
def editDistance : Str → Str → Nat
  | [], t => t.length
  | _ :: s, [] => s.length + 1
  | a :: s, b :: t =>
    min (editDistance s (b :: t) + 1)
      (min (editDistance (a :: s) t + 1) (editDistance s t + edCost a b))
termination_by s t => s.length + t.length
decreasing_by all_goals simp +arith

/-! ## Candidate extractor (`extract_artist_title_comprehensive`) -/

/-- One (strategy label, canonical artist, canonical title) tuple. -/
abbrev Interp := Str × Str × Str

/-- Auxiliary scan for `os.path.splitext`: index of the last dot that is
preceded by some non-dot character of the name. -/
def lastDotAux : Str → Nat → Bool → Option Nat → Option Nat
  | [], _, _, best => best
  | c :: cs, i, seenNonDot, best =>
    if c = '.' then
      lastDotAux cs (i + 1) seenNonDot (if seenNonDot then some i else best)
    else lastDotAux cs (i + 1) true best

/-- `os.path.splitext(filename)[0]` for a plain filename: strip the
extension starting at the last dot, except for leading-dot-only names. -/
def splitextBase (f : Str) : Str :=
  match lastDotAux f 0 false none with
  | some i => f.take i
  | none => f

/-- The filename separators tried by strategy 2, in source order
(ASCII hyphen, em dash, en dash, underscore, tilde variants). -/
def separators : List Str :=
  [" - ".data, " — ".data, " – ".data, "-".data, "_".data, "~".data]

/-- The separator character class `[\s\-_]` of the strategy-4 regexes. -/
def sepClass (c : Char) : Bool :=
  pyIsSpace c || c = '-' || c = '_'

/-- Whether `.` can match every character of `s` (no newline). -/
def noNewline (s : Str) : Bool :=
  s.all (fun c => c ≠ '\n')

/-- Backtracking tail of `[\s\-_]+(.+)$`: try the separator run at its
greedy length `j + 1` first, shrinking while the trailing `(.+)$` fails. -/
def tryRun (r : Str) : Nat → Option Str
  | 0 => none
  | j + 1 =>
    let rest := r.drop (j + 1)
    if rest ≠ [] && noNewline rest then some rest else tryRun r j

/-- Match `[\s\-_]+(.+)$` at the start of `r`, returning group 2. -/
def sepRunThenRest (r : Str) : Option Str :=
  tryRun r (r.takeWhile sepClass).length

/-- Match `[\s\-_]+by[\s\-_]+(.+)$` at the start of `r`.  The literal
`by` cannot match inside the separator run, so the first run is forced
to its greedy length. -/
def sepByRest (r : Str) : Option Str :=
  let k := (r.takeWhile sepClass).length
  if k = 0 then none
  else
    match r.drop k with
    | 'b' :: 'y' :: r2 => sepRunThenRest r2
    | _ => none

/-- Match `[\s\-_]+ft\.?[\s\-_]+(.+)$` at the start of `r`.  A dot after
`ft` is consumed when present (backtracking to the empty option cannot
succeed since `.` is not in the separator class). -/
def sepFtRest (r : Str) : Option Str :=
  let k := (r.takeWhile sepClass).length
  if k = 0 then none
  else
    match r.drop k with
    | 'f' :: 't' :: r2 =>
      match r2 with
      | '.' :: r3 => sepRunThenRest r3
      | _ => sepRunThenRest r2
    | _ => none

/-- Lazy `^(.+?)` scanning: `g1rev` is the reversed group-1 candidate;
at each position first try the rest of the pattern, then extend group 1
by one (non-newline) character. -/
def lazyScan (restMatch : Str → Option Str) : Str → Str → Option (Str × Str)
  | _, [] => none
  | g1rev, c :: cs =>
    match restMatch (c :: cs) with
    | some g2 => some (g1rev.reverse, g2)
    | none => if c = '\n' then none else lazyScan restMatch (c :: g1rev) cs

/-- `re.match` for the three strategy-4 patterns: anchor at the start,
group 1 takes at least one character. -/
def reMatchTwoGroups (restMatch : Str → Option Str) (s : Str) : Option (Str × Str) :=
  match s with
  | [] => none
  | c :: cs => if c = '\n' then none else lazyScan restMatch [c] cs

/-- Emit a strategy-4 interpretation: groups are checked non-empty (they
always are) and then stripped, as in the source. -/
def emitRegex (label : Str) (groups : Option (Str × Str)) : List Interp :=
  match groups with
  | some (artist, title) =>
    if artist ≠ [] ∧ title ≠ [] then [(label, pyStrip artist, pyStrip title)] else []
  | none => []

/-- `extract_artist_title_comprehensive` of the source.  The metadata
collaborator (mutagen tag reading, strategy 1) is modelled by the
`metadata` argument: `none` when tags are absent or unreadable.  All
raw strategies are collected in source order and then cleaned; pairs
with an empty canonical field are discarded. -/
def extract_artist_title_comprehensive (metadata : Option (Str × Str))
    (filename : Str) : List Interp :=
  let strat1 : List Interp :=
    match metadata with
    | some (artist, title) =>
      if artist ≠ [] ∧ title ≠ [] then [("metadata".data, artist, title)] else []
    | none => []
  let name_no_ext := splitextBase filename
  let strat2 : List Interp :=
    separators.flatMap (fun sep =>
      match splitOnce sep name_no_ext with
      | some (part0, part1) =>
        let artist := pyStrip part0
        let title := pyStrip part1
        if artist ≠ [] ∧ title ≠ [] then [("filename".data ++ sep, artist, title)] else []
      | none => [])
  let strat3 : List Interp :=
    if (findSubstr (" - ".data) name_no_ext).isSome ||
       (findSubstr ("-".data) name_no_ext).isSome then
      [(" - ".data), ("-".data)].flatMap (fun sep =>
        match splitOnce sep name_no_ext with
        | some (part0, part1) =>
          let title := pyStrip part0
          let artist := pyStrip part1
          if artist ≠ [] ∧ title ≠ [] ∧ artist.length ≤ 15 then
            [("filename_rev".data ++ sep, artist, title)]
          else []
        | none => [])
    else []
  let strat4 : List Interp :=
    emitRegex ("regex_artist-title".data) (reMatchTwoGroups sepRunThenRest name_no_ext) ++
    emitRegex ("regex_title-artist".data)
      ((reMatchTwoGroups sepByRest name_no_ext).map (fun g => (g.2, g.1))) ++
    emitRegex ("regex_artist-feat".data) (reMatchTwoGroups sepFtRest name_no_ext)
  (strat1 ++ strat2 ++ strat3 ++ strat4).filterMap (fun st =>
    let clean_artist := deep_clean_text st.2.1
    let clean_title := deep_clean_text st.2.2
    if clean_artist ≠ [] ∧ clean_title ≠ [] then some (st.1, clean_artist, clean_title)
    else none)

/-! ## Index builder (`build_smart_index`) -/

/-- Forward index: filename to interpretations, in listing order. -/
abbrev FileIndex := List (Str × List Interp)

/-- Reverse index: canonical (artist, title) key to the filenames that
bear it, keys and bucket entries in insertion order. -/
abbrev RevIndex := List ((Str × Str) × List Str)

/-- One entry of the directory-listing collaborator: a name, whether it
is a regular file, and what the metadata reader would return for it. -/
structure FileEntry where
  filename : Str
  isFile : Bool
  metadata : Option (Str × Str)

/-- `filename.lower().endswith(('.mp3', '.flac'))`. -/
def hasAudioExt (f : Str) : Bool :=
  endsWith (".mp3".data) (f.map pyLower) || endsWith (".flac".data) (f.map pyLower)

/-- `reverse_index[key].append(filename)` on a `defaultdict(list)`:
append to the existing bucket, or create a new key at the end. -/
def addBucket : RevIndex → (Str × Str) → Str → RevIndex
  | [], k, f => [(k, [f])]
  | (k0, fs) :: rest, k, f =>
    if k0 = k then (k0, fs ++ [f]) :: rest else (k0, fs) :: addBucket rest k f

/-- The reverse-index construction loop of `build_smart_index`. -/
def buildReverse (fi : FileIndex) : RevIndex :=
  fi.foldl (fun rev e => e.2.foldl (fun r s => addBucket r (s.2.1, s.2.2) e.1) rev) []

/-- The error raised by `os.listdir` on a nonexistent path. -/
inductive DirError
  | fileNotFound
deriving DecidableEq

/-- The file-index construction loop of `build_smart_index`: skip
non-files and non-audio extensions, extract, and keep only files with
at least one interpretation. -/
def buildFileIndex (entries : List FileEntry) : FileIndex :=
  entries.foldl (fun fi e =>
    if !e.isFile then fi
    else if !hasAudioExt e.filename then fi
    else
      match extract_artist_title_comprehensive e.metadata e.filename with
      | [] => fi
      | ss => fi ++ [(e.filename, ss)]) []

/-- `build_smart_index` of the source.  The directory collaborator is
modelled by `listing`: `none` when the path does not exist (in which
case `os.listdir` raises), otherwise the entries in listing order. -/
def build_smart_index (listing : Option (List FileEntry)) :
    Except DirError (FileIndex × RevIndex) :=
  match listing with
  | none => .error .fileNotFound
  | some entries =>
    .ok (buildFileIndex entries, buildReverse (buildFileIndex entries))

/-! ## Cross matcher (`find_unique_with_cross_check`, matching phase) -/

/-- `key in reverse1` / `reverse1[key]` on the association list. -/
def lookupRev (rev : RevIndex) (k : Str × Str) : Option (List Str) :=
  (rev.find? (fun e => decide (e.1 = k))).map (fun e => e.2)

/-- Outcome for one candidate file: an exact match (strategy label and
matched reference file), a fuzzy match (best similarity and best
reference key), or unique. -/
inductive MatchResult
  | exact (strategy : Str) (file : Str)
  | fuzzy (similarity : ℚ) (best : Str × Str)
  | unique
deriving DecidableEq

/-- The fuzzy inner loop over all reference keys: gate on artist
similarity strictly above 0.8, then track the strictly best overall
`(artist_sim + title_sim) / 2` together with its key. -/
def fuzzyScan (rev : RevIndex) (artist2 title2 : Str)
    (st : Option (Str × Str × ℚ) × ℚ) : Option (Str × Str × ℚ) × ℚ :=
  rev.foldl (fun acc e =>
    let artist1 := e.1.1
    let title1 := e.1.2
    let artist_sim := calculate_similarity artist1 artist2
    if 0.8 < artist_sim then
      let title_sim := calculate_similarity title1 title2
      let overall_sim := (artist_sim + title_sim) / 2
      if acc.2 < overall_sim then (some (artist1, title1, overall_sim), overall_sim)
      else acc
    else acc) st

/-- The per-file strategy loop: an exact reverse-index hit returns
immediately with the first file of the bucket; otherwise the fuzzy scan
updates the running best and the next interpretation is tried. -/
def scanStrats (rev : RevIndex) :
    List Interp → Option (Str × Str × ℚ) → ℚ → (Str × Str) ⊕ (Option (Str × Str × ℚ) × ℚ)
  | [], bm, bs => .inr (bm, bs)
  | (strategy2, artist2, title2) :: rest, bm, bs =>
    match lookupRev rev (artist2, title2) with
    | some matched_files => .inl (strategy2, matched_files.headI)
    | none =>
      let st := fuzzyScan rev artist2 title2 (bm, bs)
      scanStrats rev rest st.1 st.2

/-- Classification of one candidate file by the matching loop body. -/
def matchFile (rev : RevIndex) (strats : List Interp) : MatchResult :=
  match scanStrats rev strats none 0 with
  | .inl (strategy2, f) => .exact strategy2 f
  | .inr (bm, bs) =>
    match bm with
    | some (artist1, title1, _) =>
      if 0.85 < bs then .fuzzy bs (artist1, title1) else .unique
    | none => .unique

/-- The matching phase of `find_unique_with_cross_check`: classify each
candidate file in index order, appending to `unique_songs` or to
`match_details`. -/
def find_unique_with_cross_check (index2 : FileIndex) (reverse1 : RevIndex) :
    List Str × List (Str × MatchResult) :=
  index2.foldl (fun acc e =>
    match matchFile reverse1 e.2 with
    | .unique => (acc.1 ++ [e.1], acc.2)
    | r => (acc.1, acc.2 ++ [(e.1, r)])) ([], [])

/-! ## Specification-side definitions used to state the claims -/

/-- The row of prefix distances tracked by the DP: entry `j` of
`rowOf u acc t` is the distance from `u` to `acc ++ (t.take j)`. -/
def rowOf (u : Str) (acc : Str) : Str → List Nat
  | [] => [editDistance u acc]
  | b :: t => editDistance u acc :: rowOf u (acc ++ [b]) t

/-- The character alphabet claimed by the spec for canonical output:
`a-z`, `0-9`, underscore, CJK ideographs and the space. -/
def claimedCanonicalChar (c : Char) : Bool :=
  ('a' ≤ c && c ≤ 'z') || ('0' ≤ c && c ≤ '9') || c = '_' || pyIsCJK c || c = ' '

/-- The alphabet the code actually guarantees: lower-cased word
characters of the modelled repertoire, CJK ideographs and the space. -/
def allowedCanonicalChar (c : Char) : Bool :=
  (pyIsWordChar c || pyIsCJK c || c = ' ') && !isUpperAscii c

/-- No two adjacent spaces anywhere in the list. -/
def singleSpaced : Str → Bool
  | [] => true
  | [_] => true
  | a :: b :: t => !(a = ' ' && b = ' ') && singleSpaced (b :: t)

/-- Well-formedness of canonical output: allowed alphabet, single
internal spaces, no leading or trailing space. -/
def wellFormedCanonical (l : Str) : Bool :=
  l.all allowedCanonicalChar && singleSpaced l &&
  !(l.head? == some ' ') && !(l.getLast? == some ' ')

/-- Overall similarities `(artist_sim + title_sim) / 2` of one
interpretation against every reference key whose artist similarity
passes the strict 0.8 gate, in scan order. -/
def stratGated (rev : RevIndex) (artist2 title2 : Str) : List ℚ :=
  rev.filterMap (fun e =>
    let artist_sim := calculate_similarity e.1.1 artist2
    if 0.8 < artist_sim then
      some ((artist_sim + calculate_similarity e.1.2 title2) / 2)
    else none)

/-- All overall similarities of gate-passing (interpretation, reference
key) pairs of a file, in scan order. -/
def gatedOveralls (rev : RevIndex) (strats : List Interp) : List ℚ :=
  strats.flatMap (fun s => stratGated rev s.2.1 s.2.2)

/-- The best overall similarity over all gate-passing pairs (0 when no
pair passes the gate). -/
def bestOverall (rev : RevIndex) (strats : List Interp) : ℚ :=
  (gatedOveralls rev strats).foldl max 0

/-- No interpretation of the file has an exact reverse-index key. -/
def noExactKey (rev : RevIndex) (strats : List Interp) : Bool :=
  strats.all (fun s => (lookupRev rev (s.2.1, s.2.2)).isNone)

/-- The occurrences of key `k` contributed by one file-index entry (the
filename repeated once per interpretation bearing the key). -/
def entryOcc (ss : List Interp) (f : Str) (k : Str × Str) : List Str :=
  ss.filterMap (fun s => if (s.2.1, s.2.2) = k then some f else none)

/-- All filenames registered under key `k`, in index order. -/
def occurrences (idx : FileIndex) (k : Str × Str) : List Str :=
  idx.flatMap (fun e => entryOcc e.2 e.1 k)

/-- The first file of the index one of whose interpretations bears key
`k` — the "first registered" target of an exact match. -/
def firstFileWith (idx : FileIndex) (k : Str × Str) : Option Str :=
  (idx.find? (fun e => e.2.any (fun s => decide ((s.2.1, s.2.2) = k)))).map
    (fun e => e.1)

/-- Append occurrences to an optional bucket, leaving absent buckets
absent when nothing is appended. -/
def optAppend (o : Option (List Str)) (l : List Str) : Option (List Str) :=
  if l = [] then o else some (o.getD [] ++ l)

/-- Checker for the C8 invariant: every stored interpretation and every
reverse key has non-empty canonical artist and title. -/
def indexFieldsNonEmpty (r : Except DirError (FileIndex × RevIndex)) : Bool :=
  match r with
  | .error _ => true
  | .ok (fi, rev) =>
    fi.all (fun e => e.2.all (fun s => !s.2.1.isEmpty && !s.2.2.isEmpty)) &&
    rev.all (fun e => !e.1.1.isEmpty && !e.1.2.isEmpty)

/-! ## Edit-distance theory: the source DP computes the textbook distance -/

theorem editDistance_nil_left (t : Str) : editDistance [] t = t.length := by
  simp [editDistance]

theorem editDistance_nil_right (s : Str) : editDistance s [] = s.length := by
  cases s <;> simp [editDistance]

/-- The snoc recurrence of the edit distance: extending both strings on
the right satisfies the same three-way minimum as extending on the left. -/
theorem editDistance_snoc : ∀ (u w : Str) (a b : Char),
    editDistance (u ++ [a]) (w ++ [b]) =
      min (editDistance u (w ++ [b]) + 1)
        (min (editDistance (u ++ [a]) w + 1) (editDistance u w + edCost a b))
  | [], [], a, b => by
    simp only [List.nil_append, editDistance.eq_3, editDistance.eq_1,
      editDistance.eq_2, List.length_cons, List.length_nil]
  | [], y :: w', a, b => by
    have ih := editDistance_snoc [] w' a b
    simp only [List.cons_append, List.nil_append, editDistance.eq_3,
      editDistance.eq_1, editDistance_nil_right, List.length_append,
      List.length_cons, List.length_nil] at ih ⊢
    rw [ih]
    simp only [← min_add_add_right]
    apply le_antisymm <;> simp only [le_min_iff, min_le_iff] <;> omega
  | x :: u', [], a, b => by
    have ih := editDistance_snoc u' [] a b
    simp only [List.cons_append, List.nil_append, editDistance.eq_3,
      editDistance.eq_1, editDistance.eq_2, editDistance_nil_right,
      List.length_append, List.length_cons, List.length_nil] at ih ⊢
    rw [ih]
    simp only [← min_add_add_right]
    apply le_antisymm <;> simp only [le_min_iff, min_le_iff] <;> omega
  | x :: u', y :: w', a, b => by
    have ih1 := editDistance_snoc u' (y :: w') a b
    have ih2 := editDistance_snoc (x :: u') w' a b
    have ih3 := editDistance_snoc u' w' a b
    simp only [List.cons_append, List.nil_append, editDistance.eq_3] at ih1 ih2 ih3 ⊢
    rw [ih1, ih2, ih3]
    simp only [← min_add_add_right]
    apply le_antisymm <;> simp only [le_min_iff, min_le_iff] <;> omega
termination_by u w _ _ => u.length + w.length
decreasing_by all_goals (simp only [List.length_cons, List.length_nil]; omega)

theorem edCost_comm (a b : Char) : edCost a b = edCost b a := by
  unfold edCost
  by_cases h : a = b
  · subst h; simp
  · rw [if_neg h, if_neg (fun hh => h hh.symm)]

theorem editDistance_symm : ∀ (s t : Str), editDistance s t = editDistance t s
  | [], t => by simp [editDistance_nil_left, editDistance_nil_right]
  | x :: s, [] => by simp [editDistance_nil_left, editDistance_nil_right]
  | x :: s, y :: t => by
    have ih1 := editDistance_symm s (y :: t)
    have ih2 := editDistance_symm (x :: s) t
    have ih3 := editDistance_symm s t
    have hc := edCost_comm x y
    simp only [editDistance] at ih1 ih2 ih3 ⊢
    omega
termination_by s t => s.length + t.length
decreasing_by all_goals (simp only [List.length_cons]; omega)

theorem editDistance_le_max : ∀ (s t : Str),
    editDistance s t ≤ max s.length t.length
  | [], t => by simp [editDistance_nil_left]
  | x :: s, [] => by simp [editDistance_nil_right]
  | x :: s, y :: t => by
    have ih := editDistance_le_max s t
    have hc : edCost x y ≤ 1 := by unfold edCost; split <;> omega
    simp only [editDistance, List.length_cons]
    omega
termination_by s t => s.length + t.length
decreasing_by all_goals (simp only [List.length_cons]; omega)

theorem rowOf_cons_head (u acc : Str) (t : Str) :
    rowOf u acc t = editDistance u acc :: (rowOf u acc t).tail := by
  cases t <;> simp [rowOf]

theorem levRow_rowOf : ∀ (t : Str) (acc : Str) (c1 : Char) (u : Str),
    editDistance (u ++ [c1]) acc ::
        levRow c1 t (rowOf u acc t) (editDistance (u ++ [c1]) acc) =
      rowOf (u ++ [c1]) acc t := by
  intro t
  induction t with
  | nil => intro acc c1 u; simp [rowOf, levRow]
  | cons b t' ih =>
    intro acc c1 u
    obtain ⟨ps, hps⟩ : ∃ ps,
        rowOf u (acc ++ [b]) t' = editDistance u (acc ++ [b]) :: ps := by
      cases t' <;> exact ⟨_, rfl⟩
    have hv : min (editDistance u (acc ++ [b]) + 1)
        (min (editDistance (u ++ [c1]) acc + 1) (editDistance u acc + edCost c1 b)) =
        editDistance (u ++ [c1]) (acc ++ [b]) := (editDistance_snoc u acc c1 b).symm
    have ih' := ih (acc ++ [b]) c1 u
    rw [hps] at ih'
    rw [show rowOf (u ++ [c1]) acc (b :: t') =
        editDistance (u ++ [c1]) acc :: rowOf (u ++ [c1]) (acc ++ [b]) t' from rfl]
    rw [show rowOf u acc (b :: t') =
        editDistance u acc :: rowOf u (acc ++ [b]) t' from rfl]
    rw [hps]
    simp only [levRow]
    rw [hv, ← ih']

theorem levRows_rowOf : ∀ (s1 : Str) (u : Str) (s2 : Str),
    levRows s2 s1 (rowOf u [] s2) u.length = rowOf (u ++ s1) [] s2 := by
  intro s1
  induction s1 with
  | nil => intro u s2; simp [levRows]
  | cons c1 rest ih =>
    intro u s2
    have key := levRow_rowOf s2 [] c1 u
    rw [editDistance_nil_right] at key
    simp only [List.length_append, List.length_cons, List.length_nil,
      List.append_nil] at key
    simp only [levRows]
    rw [key]
    have hu : u.length + 1 = (u ++ [c1]).length := by simp
    rw [hu, ih (u ++ [c1]) s2, List.append_assoc]
    rfl

theorem rowOf_nil_eq_range' : ∀ (t : Str) (acc : Str),
    rowOf [] acc t = List.range' acc.length (t.length + 1) := by
  intro t
  induction t with
  | nil => intro acc; simp [rowOf, editDistance_nil_left, List.range']
  | cons b t' ih =>
    intro acc
    rw [rowOf, ih (acc ++ [b]), editDistance_nil_left]
    simp [List.range'_succ]

theorem rowOf_getLastD : ∀ (t : Str) (u acc : Str) (d : Nat),
    (rowOf u acc t).getLastD d = editDistance u (acc ++ t) := by
  intro t
  induction t with
  | nil => intro u acc d; simp [rowOf]
  | cons b t' ih =>
    intro u acc d
    rw [rowOf, List.getLastD_cons, ih u (acc ++ [b]), List.append_assoc]
    rfl

/-- The source's single-row DP computes the textbook edit distance. -/
theorem lev_core_eq (s1 s2 : Str) : lev_core s1 s2 = editDistance s1 s2 := by
  unfold lev_core
  split
  · next h =>
    have : s2 = [] := List.length_eq_zero.mp h
    subst this
    rw [editDistance_nil_right]
  · next h =>
    have hinit : List.range (s2.length + 1) = rowOf [] [] s2 := by
      rw [rowOf_nil_eq_range', List.range_eq_range']
      rfl
    rw [hinit]
    have := levRows_rowOf s1 [] s2
    simp only [List.length_nil, List.nil_append] at this
    rw [this, rowOf_getLastD]
    rfl

/-- `levenshtein_distance` of the source (swap included) computes the
textbook edit distance. -/
theorem levenshtein_distance_eq (s1 s2 : Str) :
    levenshtein_distance s1 s2 = editDistance s1 s2 := by
  unfold levenshtein_distance
  split
  · rw [lev_core_eq, editDistance_symm]
  · rw [lev_core_eq]

/-! ## Similarity scorer: bounds, symmetry, and the closed formula -/

theorem calculate_similarity_empty_left (x : Str) : calculate_similarity [] x = 0 := by
  simp [calculate_similarity]

theorem calculate_similarity_empty_right (x : Str) : calculate_similarity x [] = 0 := by
  simp [calculate_similarity]

theorem calculate_similarity_self (s : Str) (hs : s ≠ []) :
    calculate_similarity s s = 1 := by
  simp [calculate_similarity, hs]

theorem calculate_similarity_formula (a b : Str) (ha : a ≠ []) (hb : b ≠ [])
    (hab : a ≠ b) :
    calculate_similarity a b =
      1 - (editDistance a b : ℚ) / (max a.length b.length : ℚ) := by
  have hm : max a.length b.length ≠ 0 := by
    have := List.length_pos.mpr ha
    omega
  simp only [calculate_similarity]
  rw [if_neg (by simp [ha, hb]), if_neg hab, if_neg hm, levenshtein_distance_eq,
    Nat.cast_max]

theorem calculate_similarity_nonneg (a b : Str) : 0 ≤ calculate_similarity a b := by
  by_cases ha : a = []
  · rw [ha, calculate_similarity_empty_left]
  by_cases hb : b = []
  · rw [hb, calculate_similarity_empty_right]
  by_cases hab : a = b
  · subst hab
    rw [calculate_similarity_self a ha]
    norm_num
  · rw [calculate_similarity_formula a b ha hb hab]
    have hd : editDistance a b ≤ max a.length b.length := editDistance_le_max a b
    have hm : 0 < max a.length b.length := by
      have := List.length_pos.mpr ha
      omega
    have h1 : (editDistance a b : ℚ) / (max a.length b.length : ℚ) ≤ 1 := by
      rw [div_le_one (by exact_mod_cast hm)]
      exact_mod_cast hd
    linarith

theorem calculate_similarity_le_one (a b : Str) : calculate_similarity a b ≤ 1 := by
  by_cases ha : a = []
  · rw [ha, calculate_similarity_empty_left]
    norm_num
  by_cases hb : b = []
  · rw [hb, calculate_similarity_empty_right]
    norm_num
  by_cases hab : a = b
  · subst hab
    rw [calculate_similarity_self a ha]
  · rw [calculate_similarity_formula a b ha hb hab]
    have h0 : (0 : ℚ) ≤ (editDistance a b : ℚ) / (max a.length b.length : ℚ) :=
      div_nonneg (by positivity) (by positivity)
    linarith

theorem calculate_similarity_symm (a b : Str) :
    calculate_similarity a b = calculate_similarity b a := by
  by_cases ha : a = []
  · rw [ha, calculate_similarity_empty_left, calculate_similarity_empty_right]
  by_cases hb : b = []
  · rw [hb, calculate_similarity_empty_left, calculate_similarity_empty_right]
  by_cases hab : a = b
  · rw [hab]
  · rw [calculate_similarity_formula a b ha hb hab,
      calculate_similarity_formula b a hb ha (fun h => hab h.symm),
      editDistance_symm, max_comm]

/-- C6: for non-empty `a ≠ b`, `calculate_similarity` equals
`1 - levenshtein / max(len)` where the levenshtein distance is the
textbook unit-cost edit distance over code points, and the result lies
in `[0, 1]`. -/
theorem c6_similarity_is_normalized_edit_distance (a b : Str)
    (ha : a ≠ []) (hb : b ≠ []) (hab : a ≠ b) :
    calculate_similarity a b =
        1 - (editDistance a b : ℚ) / (max a.length b.length : ℚ) ∧
      0 ≤ calculate_similarity a b ∧ calculate_similarity a b ≤ 1 :=
  ⟨calculate_similarity_formula a b ha hb hab,
   calculate_similarity_nonneg a b, calculate_similarity_le_one a b⟩

/-- Witness for C6 at the concrete pair `"ab"`, `"ac"`. -/
theorem c6_similarity_is_normalized_edit_distance_witness :
    calculate_similarity ("ab".data) ("ac".data) =
        1 - (editDistance ("ab".data) ("ac".data) : ℚ) /
          (max ("ab".data).length ("ac".data).length : ℚ) ∧
      0 ≤ calculate_similarity ("ab".data) ("ac".data) ∧
        calculate_similarity ("ab".data) ("ac".data) ≤ 1 :=
  c6_similarity_is_normalized_edit_distance ("ab".data) ("ac".data)
    (by decide) (by decide) (by decide)

/-- C7: `similarity(s, s) = 1` for non-empty `s`, similarity is 0 when
either argument is empty, and similarity is symmetric. -/
theorem c7_similarity_self_empty_symm :
    (∀ s : Str, s ≠ [] → calculate_similarity s s = 1) ∧
      (∀ x : Str, calculate_similarity [] x = 0 ∧ calculate_similarity x [] = 0) ∧
      (∀ a b : Str, calculate_similarity a b = calculate_similarity b a) :=
  ⟨calculate_similarity_self,
   fun x => ⟨calculate_similarity_empty_left x, calculate_similarity_empty_right x⟩,
   calculate_similarity_symm⟩

/-- Witness for C7: self-similarity evaluated at the non-empty `"a"`. -/
theorem c7_similarity_self_empty_symm_witness :
    calculate_similarity ("a".data) ("a".data) = 1 :=
  c7_similarity_self_empty_symm.1 ("a".data) (by decide)

/-! ## Running-maximum helpers -/

theorem foldl_max_init_le : ∀ (L : List ℚ) (b : ℚ), b ≤ L.foldl max b := by
  intro L
  induction L with
  | nil => intro b; exact le_refl b
  | cons q t ih =>
    intro b
    exact le_trans (le_max_left b q) (ih (max b q))

theorem foldl_max_eq_of_all_le : ∀ (L : List ℚ) (b : ℚ),
    (∀ q ∈ L, q ≤ b) → L.foldl max b = b := by
  intro L
  induction L with
  | nil => intro b _; rfl
  | cons q t ih =>
    intro b h
    have hq : max b q = b := max_eq_left (h q (List.mem_cons_self q t))
    rw [List.foldl_cons, hq]
    exact ih b (fun x hx => h x (List.mem_cons_of_mem q hx))

theorem le_foldl_max_of_mem : ∀ (L : List ℚ) (b q : ℚ), q ∈ L → q ≤ L.foldl max b := by
  intro L
  induction L with
  | nil => intro b q h; cases h
  | cons a t ih =>
    intro b q h
    rcases List.mem_cons.mp h with h | h
    · subst h
      exact le_trans (le_max_right b q) (foldl_max_init_le t (max b q))
    · exact ih (max b a) q h

/-! ## The fuzzy scan computes the running maximum of gated overalls -/

theorem fuzzyScan_snd : ∀ (rev : RevIndex) (a2 t2 : Str)
    (bm : Option (Str × Str × ℚ)) (bs : ℚ),
    (fuzzyScan rev a2 t2 (bm, bs)).2 = (stratGated rev a2 t2).foldl max bs := by
  intro rev
  induction rev with
  | nil => intro a2 t2 bm bs; rfl
  | cons e rest ih =>
    intro a2 t2 bm bs
    simp only [fuzzyScan, List.foldl_cons, stratGated, List.filterMap_cons] at ih ⊢
    by_cases hg : (0.8 : ℚ) < calculate_similarity e.1.1 a2
    · simp only [hg, if_pos]
      by_cases hlt : bs <
          (calculate_similarity e.1.1 a2 + calculate_similarity e.1.2 t2) / 2
      · simp only [hlt, if_pos, List.foldl_cons]
        rw [ih]
        congr 1
        exact (max_eq_right (le_of_lt hlt)).symm
      · simp only [hlt, if_neg, if_false, List.foldl_cons]
        rw [ih]
        congr 1
        exact (max_eq_left (le_of_not_lt hlt)).symm
    · simp only [hg, if_neg, if_false]
      exact ih a2 t2 bm bs

theorem fuzzyScan_some : ∀ (rev : RevIndex) (a2 t2 : Str) (x : Str × Str × ℚ)
    (bs : ℚ), (fuzzyScan rev a2 t2 (some x, bs)).1 ≠ none := by
  intro rev
  induction rev with
  | nil => intro a2 t2 x bs h; exact Option.noConfusion h
  | cons e rest ih =>
    intro a2 t2 x bs
    simp only [fuzzyScan, List.foldl_cons] at ih ⊢
    by_cases hg : (0.8 : ℚ) < calculate_similarity e.1.1 a2
    · simp only [hg, if_pos]
      by_cases hlt : bs <
          (calculate_similarity e.1.1 a2 + calculate_similarity e.1.2 t2) / 2
      · simp only [hlt, if_pos]
        exact ih a2 t2 _ _
      · simp only [hlt, if_neg, if_false]
        exact ih a2 t2 x bs
    · simp only [hg, if_neg, if_false]
      exact ih a2 t2 x bs

theorem fuzzyScan_fst : ∀ (rev : RevIndex) (a2 t2 : Str)
    (bm : Option (Str × Str × ℚ)) (bs : ℚ),
    (fuzzyScan rev a2 t2 (bm, bs)).1 = none ↔
      (bm = none ∧ ∀ q ∈ stratGated rev a2 t2, q ≤ bs) := by
  intro rev
  induction rev with
  | nil =>
    intro a2 t2 bm bs
    simp [fuzzyScan, stratGated]
  | cons e rest ih =>
    intro a2 t2 bm bs
    simp only [fuzzyScan, List.foldl_cons, stratGated, List.filterMap_cons] at ih ⊢
    by_cases hg : (0.8 : ℚ) < calculate_similarity e.1.1 a2
    · simp only [hg, if_pos]
      by_cases hlt : bs <
          (calculate_similarity e.1.1 a2 + calculate_similarity e.1.2 t2) / 2
      · simp only [hlt, if_pos]
        constructor
        · intro h
          exact absurd h (fuzzyScan_some rest a2 t2 _ _)
        · rintro ⟨-, hall⟩
          have := hall _ (List.mem_cons_self _ _)
          exact absurd hlt (not_lt_of_le this)
      · simp only [hlt, if_neg, if_false]
        rw [ih a2 t2 bm bs]
        constructor
        · rintro ⟨h1, h2⟩
          refine ⟨h1, fun q hq => ?_⟩
          rcases List.mem_cons.mp hq with h | h
          · subst h
            exact le_of_not_lt hlt
          · exact h2 q h
        · rintro ⟨h1, h2⟩
          exact ⟨h1, fun q hq => h2 q (List.mem_cons_of_mem _ hq)⟩
    · simp only [hg, if_neg, if_false]
      exact ih a2 t2 bm bs

/-! ## Gated overalls are strictly positive -/

theorem stratGated_pos (rev : RevIndex) (a2 t2 : Str) :
    ∀ q ∈ stratGated rev a2 t2, (2 : ℚ) / 5 < q := by
  intro q hq
  simp only [stratGated, List.mem_filterMap] at hq
  obtain ⟨e, -, he⟩ := hq
  by_cases hg : (0.8 : ℚ) < calculate_similarity e.1.1 a2
  · rw [if_pos hg] at he
    have ht := calculate_similarity_nonneg e.1.2 t2
    have : (0.8 : ℚ) = 4 / 5 := by norm_num
    rw [← Option.some_inj.mp he]
    rw [this] at hg
    linarith
  · rw [if_neg hg] at he
    exact Option.noConfusion he

theorem gatedOveralls_pos (rev : RevIndex) (strats : List Interp) :
    ∀ q ∈ gatedOveralls rev strats, (2 : ℚ) / 5 < q := by
  intro q hq
  simp only [gatedOveralls, List.mem_flatMap] at hq
  obtain ⟨s, -, hs⟩ := hq
  exact stratGated_pos rev s.2.1 s.2.2 q hs

/-! ## The strategy loop without an exact hit tracks the same maximum -/

theorem scanStrats_no_exact : ∀ (rev : RevIndex) (strats : List Interp)
    (bm : Option (Str × Str × ℚ)) (bs : ℚ),
    (∀ s ∈ strats, lookupRev rev (s.2.1, s.2.2) = none) →
    ∃ bm', scanStrats rev strats bm bs =
        .inr (bm', (gatedOveralls rev strats).foldl max bs) ∧
      (bm' = none ↔ (bm = none ∧ ∀ q ∈ gatedOveralls rev strats, q ≤ bs)) := by
  intro rev strats
  induction strats with
  | nil =>
    intro bm bs _
    refine ⟨bm, rfl, ?_⟩
    simp [gatedOveralls]
  | cons s rest ih =>
    intro bm bs h
    obtain ⟨st2, a2, t2⟩ := s
    have hl : lookupRev rev (a2, t2) = none := h _ (List.mem_cons_self _ _)
    have hrest : ∀ s ∈ rest, lookupRev rev (s.2.1, s.2.2) = none :=
      fun s hs => h s (List.mem_cons_of_mem _ hs)
    have hsnd := fuzzyScan_snd rev a2 t2 bm bs
    obtain ⟨bm', heq, hiff⟩ :=
      ih (fuzzyScan rev a2 t2 (bm, bs)).1 (fuzzyScan rev a2 t2 (bm, bs)).2 hrest
    refine ⟨bm', ?_, ?_⟩
    · simp only [scanStrats, hl]
      rw [heq, hsnd]
      have : gatedOveralls rev ((st2, a2, t2) :: rest) =
          stratGated rev a2 t2 ++ gatedOveralls rev rest := by
        simp [gatedOveralls]
      rw [this, List.foldl_append]
    · rw [hiff, fuzzyScan_fst rev a2 t2 bm bs, hsnd]
      have hsplit : gatedOveralls rev ((st2, a2, t2) :: rest) =
          stratGated rev a2 t2 ++ gatedOveralls rev rest := by
        simp [gatedOveralls]
      rw [hsplit]
      constructor
      · rintro ⟨⟨h1, h2⟩, h3⟩
        have hstay : (stratGated rev a2 t2).foldl max bs = bs :=
          foldl_max_eq_of_all_le _ bs h2
        refine ⟨h1, fun q hq => ?_⟩
        rcases List.mem_append.mp hq with hq | hq
        · exact h2 q hq
        · have := h3 q hq
          rwa [hstay] at this
      · rintro ⟨h1, h2⟩
        have h2l : ∀ q ∈ stratGated rev a2 t2, q ≤ bs :=
          fun q hq => h2 q (List.mem_append.mpr (Or.inl hq))
        have h2r : ∀ q ∈ gatedOveralls rev rest, q ≤ bs :=
          fun q hq => h2 q (List.mem_append.mpr (Or.inr hq))
        have hstay : (stratGated rev a2 t2).foldl max bs = bs :=
          foldl_max_eq_of_all_le _ bs h2l
        exact ⟨⟨h1, h2l⟩, fun q hq => by rw [hstay]; exact h2r q hq⟩

/-- Under "no interpretation has an exact key", the per-file outcome is
Fuzzy with similarity equal to the best gated overall when that best is
strictly above 0.85, and Unique otherwise. -/
theorem matchFile_no_exact (rev : RevIndex) (strats : List Interp)
    (h : ∀ s ∈ strats, lookupRev rev (s.2.1, s.2.2) = none) :
    (0.85 < bestOverall rev strats →
        ∃ k, matchFile rev strats = .fuzzy (bestOverall rev strats) k) ∧
      (¬ 0.85 < bestOverall rev strats → matchFile rev strats = .unique) := by
  obtain ⟨bm', heq, hiff⟩ := scanStrats_no_exact rev strats none 0 h
  have hbest : bestOverall rev strats = (gatedOveralls rev strats).foldl max 0 := rfl
  rcases hbm : bm' with _ | ⟨a1, t1, q⟩
  · have hall : ∀ q ∈ gatedOveralls rev strats, q ≤ 0 := ((hiff.mp hbm).2)
    have hnil : gatedOveralls rev strats = [] := by
      cases hg : gatedOveralls rev strats with
      | nil => rfl
      | cons q t =>
        have h1 := hall q (by rw [hg]; exact List.mem_cons_self q t)
        have h2 := gatedOveralls_pos rev strats q (by rw [hg]; exact List.mem_cons_self q t)
        linarith
    have hzero : bestOverall rev strats = 0 := by rw [hbest, hnil]; rfl
    constructor
    · intro habs
      rw [hzero] at habs
      norm_num at habs
    · intro _
      unfold matchFile
      rw [heq, hbm]
    -- `matchFile` with `bm' = none` is `.unique`
  · constructor
    · intro hgt
      refine ⟨(a1, t1), ?_⟩
      unfold matchFile
      rw [heq, hbm, hbest]
      rw [hbest] at hgt
      simp [hgt]
    · intro hle
      unfold matchFile
      rw [heq, hbm]
      rw [hbest] at hle
      simp [hle]

/-! ## The cross-match loop as a pair of filterMaps -/

theorem cross_fold_aux (rev : RevIndex) : ∀ (idx : FileIndex)
    (u0 : List Str) (d0 : List (Str × MatchResult)),
    idx.foldl (fun acc e =>
        match matchFile rev e.2 with
        | .unique => (acc.1 ++ [e.1], acc.2)
        | r => (acc.1, acc.2 ++ [(e.1, r)])) (u0, d0) =
      (u0 ++ idx.filterMap (fun e =>
          if matchFile rev e.2 = .unique then some e.1 else none),
       d0 ++ idx.filterMap (fun e =>
          match matchFile rev e.2 with
          | .unique => none
          | r => some (e.1, r))) := by
  intro idx
  induction idx with
  | nil => intro u0 d0; simp
  | cons e rest ih =>
    intro u0 d0
    rw [List.foldl_cons, List.filterMap_cons, List.filterMap_cons]
    rcases hm : matchFile rev e.2 with ⟨st, fl⟩ | ⟨sim, bst⟩ | -
    · simp only [hm]
      rw [ih u0 (d0 ++ [(e.1, MatchResult.exact st fl)])]
      simp
    · simp only [hm]
      rw [ih u0 (d0 ++ [(e.1, MatchResult.fuzzy sim bst)])]
      simp
    · simp only [hm]
      rw [ih (u0 ++ [e.1]) d0]
      simp

theorem find_unique_eq (idx : FileIndex) (rev : RevIndex) :
    find_unique_with_cross_check idx rev =
      (idx.filterMap (fun e =>
          if matchFile rev e.2 = .unique then some e.1 else none),
       idx.filterMap (fun e =>
          match matchFile rev e.2 with
          | .unique => none
          | r => some (e.1, r))) := by
  unfold find_unique_with_cross_check
  rw [cross_fold_aux rev idx [] []]
  simp

/-- Distinct index keys determine the interpretation list. -/
theorem keys_nodup_unique : ∀ (idx : FileIndex) (f : Str) (s1 s2 : List Interp),
    (idx.map Prod.fst).Nodup → (f, s1) ∈ idx → (f, s2) ∈ idx → s1 = s2 := by
  intro idx
  induction idx with
  | nil => intro f s1 s2 _ h1; cases h1
  | cons e rest ih =>
    intro f s1 s2 hnd h1 h2
    rw [List.map_cons, List.nodup_cons] at hnd
    rcases List.mem_cons.mp h1 with h1 | h1 <;> rcases List.mem_cons.mp h2 with h2 | h2
    · rw [← h1] at h2
      exact congrArg Prod.snd h2.symm
    · exfalso
      apply hnd.1
      have hf : f = e.1 := congrArg Prod.fst h1
      rw [hf] at h2
      exact List.mem_map.mpr ⟨(e.1, s2), h2, rfl⟩
    · exfalso
      apply hnd.1
      have hf : f = e.1 := congrArg Prod.fst h2
      rw [hf] at h1
      exact List.mem_map.mpr ⟨(e.1, s1), h1, rfl⟩
    · exact ih f s1 s2 hnd.2 h1 h2

/-- C1: for a candidate file none of whose interpretations has an exact
reverse-index key, the loop records a Fuzzy match if and only if the
best overall similarity over all artist-gated pairs is strictly above
0.85 — and otherwise the file lands in `unique_songs`.  Both cutoffs
are strict. -/
theorem c1_fuzzy_iff_best_above_strict_085 (rev : RevIndex) (index2 : FileIndex)
    (f : Str) (strats : List Interp)
    (hmem : (f, strats) ∈ index2)
    (hnodup : (index2.map Prod.fst).Nodup)
    (hnoexact : noExactKey rev strats = true) :
    ((∃ k, (f, MatchResult.fuzzy (bestOverall rev strats) k) ∈
        (find_unique_with_cross_check index2 rev).2) ↔
      0.85 < bestOverall rev strats) ∧
    (f ∈ (find_unique_with_cross_check index2 rev).1 ↔
      ¬ 0.85 < bestOverall rev strats) := by
  have hno : ∀ s ∈ strats, lookupRev rev (s.2.1, s.2.2) = none := by
    intro s hs
    exact Option.isNone_iff_eq_none.mp ((List.all_eq_true.mp hnoexact) s hs)
  have hmf := matchFile_no_exact rev strats hno
  rw [find_unique_eq]
  constructor
  · constructor
    · rintro ⟨k, hk⟩
      rw [List.mem_filterMap] at hk
      obtain ⟨e, he, hsel⟩ := hk
      by_contra hle
      have hu := hmf.2 hle
      rcases hm : matchFile rev e.2 with ⟨st, fl⟩ | ⟨sim, bst⟩ | -
      · rw [hm] at hsel
        simp only [Option.some_inj, Prod.mk.injEq] at hsel
        exact MatchResult.noConfusion hsel.2
      · rw [hm] at hsel
        simp only [Option.some_inj, Prod.mk.injEq] at hsel
        have hef : e = (f, e.2) := Prod.ext hsel.1 rfl
        rw [hef] at he
        have : e.2 = strats := keys_nodup_unique index2 f e.2 strats hnodup he hmem
        rw [this] at hm
        rw [hu] at hm
        exact MatchResult.noConfusion hm
      · rw [hm] at hsel
        exact Option.noConfusion hsel
    · intro hgt
      obtain ⟨k, hk⟩ := hmf.1 hgt
      refine ⟨k, List.mem_filterMap.mpr ⟨(f, strats), hmem, ?_⟩⟩
      rw [show (f, strats).2 = strats from rfl, hk]
  · constructor
    · intro hf
      rw [List.mem_filterMap] at hf
      obtain ⟨e, he, hsel⟩ := hf
      by_cases hm : matchFile rev e.2 = .unique
      · rw [if_pos hm, Option.some_inj] at hsel
        have hef : e = (f, e.2) := Prod.ext hsel rfl
        rw [hef] at he
        have hst : e.2 = strats := keys_nodup_unique index2 f e.2 strats hnodup he hmem
        rw [hst] at hm
        intro h85
        obtain ⟨k, hk⟩ := hmf.1 h85
        rw [hm] at hk
        exact MatchResult.noConfusion hk
      · rw [if_neg hm] at hsel
        exact Option.noConfusion hsel
    · intro hle
      have hu := hmf.2 hle
      refine List.mem_filterMap.mpr ⟨(f, strats), hmem, ?_⟩
      rw [show (f, strats).2 = strats from rfl, hu]
      simp

/-- Witness for C1: a single-file index whose only interpretation
passes the artist gate with best overall 1/2 ≤ 0.85, so it is unique. -/
theorem c1_fuzzy_iff_best_above_strict_085_witness :
    (noExactKey [(("ab".data, "cd".data), ["r.flac".data])]
        [("s".data, "ab".data, "xx".data)] = true) ∧
    (("f.mp3".data) ∈ (find_unique_with_cross_check
        [(("f.mp3".data), [("s".data, "ab".data, "xx".data)])]
        [(("ab".data, "cd".data), ["r.flac".data])]).1 ↔
      ¬ 0.85 < bestOverall [(("ab".data, "cd".data), ["r.flac".data])]
        [("s".data, "ab".data, "xx".data)]) :=
  ⟨by decide,
   (c1_fuzzy_iff_best_above_strict_085
      [(("ab".data, "cd".data), ["r.flac".data])]
      [(("f.mp3".data), [("s".data, "ab".data, "xx".data)])]
      ("f.mp3".data) [("s".data, "ab".data, "xx".data)]
      (by decide) (by decide) (by decide)).2⟩

/-! ## C10: the matching loop partitions the candidate index -/

theorem decSel_of_ne (rev : RevIndex) (e : Str × List Interp)
    (hq : matchFile rev e.2 ≠ MatchResult.unique) :
    (match matchFile rev e.2 with
      | MatchResult.unique => none
      | r => some (e.1, r)) = some (e.1, matchFile rev e.2) := by
  rcases hm : matchFile rev e.2 with ⟨st, fl⟩ | ⟨sim, bst⟩ | -
  · rfl
  · rfl
  · exact absurd hm hq

theorem partition_length (rev : RevIndex) : ∀ (idx : FileIndex),
    (idx.filterMap (fun e =>
        if matchFile rev e.2 = .unique then some e.1 else none)).length +
      (idx.filterMap (fun e =>
        match matchFile rev e.2 with
        | .unique => none
        | r => some (e.1, r))).length = idx.length := by
  intro idx
  induction idx with
  | nil => rfl
  | cons e rest ih =>
    rw [List.filterMap_cons, List.filterMap_cons]
    rcases hm : matchFile rev e.2 with ⟨st, fl⟩ | ⟨sim, bst⟩ | - <;>
      simp [hm] <;> omega

theorem partition_count (rev : RevIndex) : ∀ (idx : FileIndex) (f : Str),
    ((idx.filterMap (fun e =>
        if matchFile rev e.2 = .unique then some e.1 else none)).filter
          (fun g => decide (g = f))).length +
      ((idx.filterMap (fun e =>
        match matchFile rev e.2 with
        | .unique => none
        | r => some (e.1, r))).filter (fun d => decide (d.1 = f))).length =
      (idx.filter (fun e => decide (e.1 = f))).length := by
  intro idx
  induction idx with
  | nil => intro f; rfl
  | cons e rest ih =>
    intro f
    have hih := ih f
    rw [List.filterMap_cons, List.filterMap_cons, List.filter_cons]
    rcases hm : matchFile rev e.2 with ⟨st, fl⟩ | ⟨sim, bst⟩ | - <;>
      by_cases hf : e.1 = f <;>
        simp [hm, hf, List.filter_cons] at hih ⊢ <;> omega

/-- C10: every candidate file contributes to exactly one of
`unique_songs` and `match_details`: the lengths add up to the index
size, and per-filename counts add up entrywise. -/
theorem c10_cross_match_partitions_index (index2 : FileIndex) (rev : RevIndex) :
    ((find_unique_with_cross_check index2 rev).1.length +
        (find_unique_with_cross_check index2 rev).2.length = index2.length) ∧
    ∀ f : Str,
      (((find_unique_with_cross_check index2 rev).1.filter
          (fun g => decide (g = f))).length +
        ((find_unique_with_cross_check index2 rev).2.filter
          (fun d => decide (d.1 = f))).length =
        (index2.filter (fun e => decide (e.1 = f))).length) := by
  rw [find_unique_eq]
  exact ⟨partition_length rev index2, fun f => partition_count rev index2 f⟩

/-! ## Reverse-index buckets: first registered file wins -/

theorem optAppend_nil (o : Option (List Str)) : optAppend o [] = o := by
  simp [optAppend]

theorem optAppend_some (l l2 : List Str) : optAppend (some l) l2 = some (l ++ l2) := by
  by_cases h : l2 = []
  · simp [optAppend, h]
  · simp [optAppend, h]

theorem optAppend_assoc (o : Option (List Str)) (l1 l2 : List Str) :
    optAppend (optAppend o l1) l2 = optAppend o (l1 ++ l2) := by
  cases o with
  | some l => rw [optAppend_some, optAppend_some, optAppend_some, List.append_assoc]
  | none =>
    by_cases h1 : l1 = []
    · simp [optAppend, h1]
    · by_cases h2 : l2 = []
      · simp [optAppend, h1, h2]
      · simp [optAppend, h1, h2]

theorem lookupRev_nil (k : Str × Str) : lookupRev [] k = none := rfl

theorem lookupRev_addBucket : ∀ (rev : RevIndex) (k' : Str × Str) (f : Str)
    (k : Str × Str),
    lookupRev (addBucket rev k' f) k =
      if k = k' then some ((lookupRev rev k).getD [] ++ [f]) else lookupRev rev k := by
  intro rev
  induction rev with
  | nil =>
    intro k' f k
    by_cases hk : k = k'
    · subst hk
      simp [addBucket, lookupRev]
    · have hk2 : ¬ k' = k := fun h => hk h.symm
      simp [addBucket, lookupRev, hk, hk2]
  | cons e rest ih =>
    intro k' f k
    obtain ⟨k0, fs⟩ := e
    by_cases h0 : k0 = k'
    · subst h0
      rw [show addBucket ((k0, fs) :: rest) k0 f = (k0, fs ++ [f]) :: rest by
        simp [addBucket]]
      by_cases hk : k = k0
      · subst hk
        simp [lookupRev]
      · have hk2 : ¬ k0 = k := fun h => hk h.symm
        simp [lookupRev, List.find?_cons, hk, hk2]
    · rw [show addBucket ((k0, fs) :: rest) k' f = (k0, fs) :: addBucket rest k' f by
        simp [addBucket, h0]]
      by_cases hk : k = k0
      · have hkk : ¬ k = k' := by
          rw [hk]
          exact fun h => h0 h
        subst hk
        simp [lookupRev, List.find?_cons, hkk]
      · have hk2 : ¬ k0 = k := fun h => hk h.symm
        have hfind : ∀ (r : RevIndex),
            lookupRev ((k0, fs) :: r) k = lookupRev r k := by
          intro r
          simp [lookupRev, List.find?_cons, hk2]
        rw [hfind, hfind, ih k' f k]

theorem lookupRev_entry_fold : ∀ (ss : List Interp) (f : Str) (rev : RevIndex)
    (k : Str × Str),
    lookupRev (ss.foldl (fun r s => addBucket r (s.2.1, s.2.2) f) rev) k =
      optAppend (lookupRev rev k) (entryOcc ss f k) := by
  intro ss
  induction ss with
  | nil =>
    intro f rev k
    rw [List.foldl_nil, show entryOcc [] f k = [] from rfl, optAppend_nil]
  | cons s rest ih =>
    intro f rev k
    rw [List.foldl_cons, ih f (addBucket rev (s.2.1, s.2.2) f) k,
      lookupRev_addBucket rev (s.2.1, s.2.2) f k]
    by_cases hk : k = (s.2.1, s.2.2)
    · rw [if_pos hk]
      have hocc : entryOcc (s :: rest) f k = f :: entryOcc rest f k := by
        simp only [entryOcc, List.filterMap_cons]
        rw [if_pos hk.symm]
      rw [hocc, optAppend_some]
      by_cases hr : entryOcc rest f k = []
      · simp [optAppend, hr]
      · simp [optAppend, hr, List.append_assoc]
    · rw [if_neg hk]
      have hocc : entryOcc (s :: rest) f k = entryOcc rest f k := by
        simp only [entryOcc, List.filterMap_cons]
        rw [if_neg (fun h => hk (Eq.symm h))]
      rw [hocc]

theorem lookupRev_build_fold : ∀ (idx : FileIndex) (rev : RevIndex) (k : Str × Str),
    lookupRev (idx.foldl
        (fun r e => e.2.foldl (fun r' s => addBucket r' (s.2.1, s.2.2) e.1) r) rev) k =
      optAppend (lookupRev rev k) (occurrences idx k) := by
  intro idx
  induction idx with
  | nil =>
    intro rev k
    rw [List.foldl_nil, show occurrences [] k = [] from rfl, optAppend_nil]
  | cons e rest ih =>
    intro rev k
    rw [List.foldl_cons, ih _ k, lookupRev_entry_fold e.2 e.1 rev k,
      optAppend_assoc]
    rfl

theorem lookupRev_buildReverse (fi : FileIndex) (k : Str × Str) :
    lookupRev (buildReverse fi) k =
      if occurrences fi k = [] then none else some (occurrences fi k) := by
  unfold buildReverse
  rw [lookupRev_build_fold fi [] k, lookupRev_nil]
  by_cases h : occurrences fi k = []
  · simp [optAppend, h]
  · simp [optAppend, h]

theorem entryOcc_mem : ∀ (ss : List Interp) (f : Str) (k : Str × Str) (x : Str),
    x ∈ entryOcc ss f k → x = f := by
  intro ss f k x hx
  simp only [entryOcc, List.mem_filterMap] at hx
  obtain ⟨s, -, hs⟩ := hx
  by_cases hc : (s.2.1, s.2.2) = k
  · rw [if_pos hc] at hs
    exact (Option.some_inj.mp hs).symm
  · rw [if_neg hc] at hs
    exact Option.noConfusion hs

theorem entryOcc_ne_nil_iff : ∀ (ss : List Interp) (f : Str) (k : Str × Str),
    entryOcc ss f k ≠ [] ↔
      ss.any (fun s => decide ((s.2.1, s.2.2) = k)) = true := by
  intro ss f k
  induction ss with
  | nil => simp [entryOcc]
  | cons s rest ih =>
    by_cases hc : (s.2.1, s.2.2) = k
    · have hocc : entryOcc (s :: rest) f k = f :: entryOcc rest f k := by
        simp only [entryOcc, List.filterMap_cons]
        rw [if_pos hc]
      rw [hocc, List.any_cons, decide_eq_true hc, Bool.true_or]
      simp
    · have hocc : entryOcc (s :: rest) f k = entryOcc rest f k := by
        simp only [entryOcc, List.filterMap_cons]
        rw [if_neg hc]
      rw [hocc, List.any_cons, decide_eq_false hc, Bool.false_or]
      exact ih

theorem firstFileWith_head : ∀ (idx : FileIndex) (k : Str × Str),
    occurrences idx k ≠ [] →
    firstFileWith idx k = some ((occurrences idx k).headI) := by
  intro idx
  induction idx with
  | nil => intro k h; exact absurd rfl h
  | cons e rest ih =>
    intro k h
    have hocc : occurrences (e :: rest) k = entryOcc e.2 e.1 k ++ occurrences rest k := by
      simp [occurrences]
    by_cases hne : entryOcc e.2 e.1 k = []
    · have hany : ¬ e.2.any (fun s => decide ((s.2.1, s.2.2) = k)) = true := by
        rw [← entryOcc_ne_nil_iff e.2 e.1 k]
        simp [hne]
      rw [hocc, hne, List.nil_append] at h ⊢
      unfold firstFileWith
      have hf : (e.2.any fun s => decide ((s.2.1, s.2.2) = k)) = false :=
        Bool.eq_false_iff.mpr hany
      rw [List.find?_cons, hf]
      exact ih k h
    · obtain ⟨x, t, hxt⟩ := List.exists_cons_of_ne_nil hne
      have hx : x = e.1 := entryOcc_mem e.2 e.1 k x (by rw [hxt]; exact List.mem_cons_self x t)
      have hany : e.2.any (fun s => decide ((s.2.1, s.2.2) = k)) = true :=
        (entryOcc_ne_nil_iff e.2 e.1 k).mp hne
      unfold firstFileWith
      rw [List.find?_cons, hany, hocc, hxt, hx]
      rfl

/-! ## The strategy loop returns the first exact hit -/

theorem scanStrats_first_exact : ∀ (rev : RevIndex) (strats : List Interp)
    (bm : Option (Str × Str × ℚ)) (bs : ℚ) (st2 a2 t2 : Str),
    strats.find? (fun s => (lookupRev rev (s.2.1, s.2.2)).isSome) =
      some (st2, a2, t2) →
    ∃ files, lookupRev rev (a2, t2) = some files ∧
      scanStrats rev strats bm bs = .inl (st2, files.headI) := by
  intro rev strats
  induction strats with
  | nil => intro bm bs st2 a2 t2 h; exact Option.noConfusion h
  | cons s rest ih =>
    intro bm bs st2 a2 t2 h
    by_cases hp : (lookupRev rev (s.2.1, s.2.2)).isSome = true
    · rw [List.find?_cons, hp] at h
      have hs : s = (st2, a2, t2) := Option.some_inj.mp h
      subst hs
      obtain ⟨files, hf⟩ := Option.isSome_iff_exists.mp hp
      refine ⟨files, hf, ?_⟩
      simp only [scanStrats, hf]
    · have hpf : (lookupRev rev (s.2.1, s.2.2)).isSome = false := by
        simpa using hp
      rw [List.find?_cons, hpf] at h
      have hnone : lookupRev rev (s.2.1, s.2.2) = none :=
        Option.not_isSome_iff_eq_none.mp hp
      obtain ⟨st3, a3, t3⟩ := s
      obtain ⟨files, hf, hscan⟩ := ih
        (fuzzyScan rev a3 t3 (bm, bs)).1 (fuzzyScan rev a3 t3 (bm, bs)).2 st2 a2 t2 h
      refine ⟨files, hf, ?_⟩
      simp only [scanStrats, hnone]
      exact hscan

/-- C2: when some interpretation of a candidate file is an exact
reverse-index key, the first such interpretation wins: the file gets an
Exact decision referencing the first file registered under that key, it
never lands in `unique_songs`, and it never gets a Fuzzy decision. -/
theorem c2_exact_priority_first_interpretation_first_file
    (index1 index2 : FileIndex) (f : Str) (strats : List Interp)
    (st2 a2 t2 : Str)
    (hmem : (f, strats) ∈ index2)
    (hnodup : (index2.map Prod.fst).Nodup)
    (hfind : strats.find?
        (fun s => (lookupRev (buildReverse index1) (s.2.1, s.2.2)).isSome) =
      some (st2, a2, t2)) :
    ∃ f1, firstFileWith index1 (a2, t2) = some f1 ∧
      matchFile (buildReverse index1) strats = .exact st2 f1 ∧
      (f, MatchResult.exact st2 f1) ∈
        (find_unique_with_cross_check index2 (buildReverse index1)).2 ∧
      f ∉ (find_unique_with_cross_check index2 (buildReverse index1)).1 ∧
      ∀ q k, (f, MatchResult.fuzzy q k) ∉
        (find_unique_with_cross_check index2 (buildReverse index1)).2 := by
  obtain ⟨files, hl, hscan⟩ :=
    scanStrats_first_exact (buildReverse index1) strats none 0 st2 a2 t2 hfind
  rw [lookupRev_buildReverse index1 (a2, t2)] at hl
  by_cases hocc : occurrences index1 (a2, t2) = []
  · rw [if_pos hocc] at hl
    exact Option.noConfusion hl
  · rw [if_neg hocc, Option.some_inj] at hl
    have hmf : matchFile (buildReverse index1) strats = .exact st2 files.headI := by
      unfold matchFile
      rw [hscan]
    refine ⟨files.headI, ?_, hmf, ?_, ?_, ?_⟩
    · rw [firstFileWith_head index1 (a2, t2) hocc, hl]
    · rw [find_unique_eq]
      refine List.mem_filterMap.mpr ⟨(f, strats), hmem, ?_⟩
      rw [show (f, strats).2 = strats from rfl, hmf]
    · rw [find_unique_eq]
      intro habs
      rw [List.mem_filterMap] at habs
      obtain ⟨e, he, hsel⟩ := habs
      by_cases hq : matchFile (buildReverse index1) e.2 = MatchResult.unique
      · rw [if_pos hq, Option.some_inj] at hsel
        have hef : e = (f, e.2) := Prod.ext hsel rfl
        rw [hef] at he
        have hst : e.2 = strats :=
          keys_nodup_unique index2 f e.2 strats hnodup he hmem
        rw [hst, hmf] at hq
        exact MatchResult.noConfusion hq
      · rw [if_neg hq] at hsel
        exact Option.noConfusion hsel
    · intro q k habs
      rw [find_unique_eq, List.mem_filterMap] at habs
      obtain ⟨e, he, hsel⟩ := habs
      rcases hmm : matchFile (buildReverse index1) e.2 with ⟨sta, fla⟩ | ⟨sim, bst⟩ | -
      · rw [hmm] at hsel
        simp only [Option.some_inj, Prod.mk.injEq] at hsel
        exact MatchResult.noConfusion hsel.2
      · rw [hmm] at hsel
        simp only [Option.some_inj, Prod.mk.injEq] at hsel
        have hef : e = (f, e.2) := Prod.ext hsel.1 rfl
        rw [hef] at he
        have hst : e.2 = strats :=
          keys_nodup_unique index2 f e.2 strats hnodup he hmem
        rw [hst, hmf] at hmm
        exact MatchResult.noConfusion hmm
      · rw [hmm] at hsel
        exact Option.noConfusion hsel

/-- Witness for C2: one reference file registered under `(a, b)` and one
candidate whose single interpretation bears that key exactly. -/
theorem c2_exact_priority_first_interpretation_first_file_witness :
    ∃ f1, firstFileWith [(("x.flac".data), [("m".data, "a".data, "b".data)])]
        ("a".data, "b".data) = some f1 ∧
      matchFile (buildReverse [(("x.flac".data), [("m".data, "a".data, "b".data)])])
        [("s".data, "a".data, "b".data)] = .exact ("s".data) f1 ∧
      (("f.mp3".data), MatchResult.exact ("s".data) f1) ∈
        (find_unique_with_cross_check
          [(("f.mp3".data), [("s".data, "a".data, "b".data)])]
          (buildReverse [(("x.flac".data), [("m".data, "a".data, "b".data)])])).2 ∧
      ("f.mp3".data) ∉ (find_unique_with_cross_check
          [(("f.mp3".data), [("s".data, "a".data, "b".data)])]
          (buildReverse [(("x.flac".data), [("m".data, "a".data, "b".data)])])).1 ∧
      ∀ q k, (("f.mp3".data), MatchResult.fuzzy q k) ∉
        (find_unique_with_cross_check
          [(("f.mp3".data), [("s".data, "a".data, "b".data)])]
          (buildReverse [(("x.flac".data), [("m".data, "a".data, "b".data)])])).2 :=
  c2_exact_priority_first_interpretation_first_file
    [(("x.flac".data), [("m".data, "a".data, "b".data)])]
    [(("f.mp3".data), [("s".data, "a".data, "b".data)])]
    ("f.mp3".data) [("s".data, "a".data, "b".data)]
    ("s".data) ("a".data) ("b".data)
    (by decide) (by decide) (by decide)

/-- C3 (code bug): `canonicalize` is not idempotent.  The unescaped dot
in the `ver.` marker regex makes a second pass delete `"ver "` before a
word: `"ver  y"` cleans to `"ver y"`, which cleans again to `"y"`. -/
theorem c3_canonicalize_not_idempotent :
    deep_clean_text (deep_clean_text ("ver  y".data)) ≠
        deep_clean_text ("ver  y".data) ∧
      deep_clean_text ("ver  y".data) = ("ver y".data) ∧
      deep_clean_text ("ver y".data) = ("y".data) := by
  decide

/-- C5 (code bug): the marker-removal step deletes the whole word
`"very"`, which is not one of the eleven markers — the regex `\bver.\b`
is built with an unescaped dot. -/
theorem c5_marker_step_removes_non_marker_word :
    removeMarkers ("very".data) = [] ∧
      deep_clean_text ("very".data) = [] ∧
      ("very".data) ∉ version_markers := by
  decide

/-- C9 (counterexample): on an existing but empty directory the index
builder silently returns empty indices — no `InvalidInput` condition is
signalled to the caller. -/
theorem c9_empty_directory_silently_ok :
    build_smart_index (some []) = Except.ok ([], []) := rfl

/-- C9 (amended): only a nonexistent path raises (the `os.listdir`
error propagates); an existing empty directory yields empty indices
with no error. -/
theorem c9_amended_error_only_when_path_missing :
    build_smart_index none = Except.error DirError.fileNotFound ∧
      build_smart_index (some []) = Except.ok ([], []) :=
  ⟨rfl, rfl⟩

/-! ## C8: the extractor boundary discards empty canonical fields -/

theorem cleanFilter_nonempty : ∀ (L : List Interp) (st : Interp),
    st ∈ L.filterMap (fun st =>
      let clean_artist := deep_clean_text st.2.1
      let clean_title := deep_clean_text st.2.2
      if clean_artist ≠ [] ∧ clean_title ≠ [] then
        some (st.1, clean_artist, clean_title)
      else none) →
    st.2.1 ≠ [] ∧ st.2.2 ≠ [] := by
  intro L st hst
  rw [List.mem_filterMap] at hst
  obtain ⟨raw, -, hr⟩ := hst
  by_cases hc : deep_clean_text raw.2.1 ≠ [] ∧ deep_clean_text raw.2.2 ≠ []
  · have hr2 : (if deep_clean_text raw.2.1 ≠ [] ∧ deep_clean_text raw.2.2 ≠ [] then
        some (raw.1, deep_clean_text raw.2.1, deep_clean_text raw.2.2)
      else none) = some st := hr
    rw [if_pos hc, Option.some_inj] at hr2
    rw [← hr2]
    exact hc
  · have hr2 : (if deep_clean_text raw.2.1 ≠ [] ∧ deep_clean_text raw.2.2 ≠ [] then
        some (raw.1, deep_clean_text raw.2.1, deep_clean_text raw.2.2)
      else none) = some st := hr
    rw [if_neg hc] at hr2
    exact Option.noConfusion hr2

theorem extract_fields_nonempty (metadata : Option (Str × Str)) (filename : Str) :
    ∀ st ∈ extract_artist_title_comprehensive metadata filename,
      st.2.1 ≠ [] ∧ st.2.2 ≠ [] := by
  intro st hst
  exact cleanFilter_nonempty _ st hst

theorem buildFileIndex_mem : ∀ (entries : List FileEntry) (acc : FileIndex),
    (∀ e ∈ acc, ∀ s ∈ e.2, s.2.1 ≠ [] ∧ s.2.2 ≠ []) →
    ∀ e ∈ entries.foldl (fun fi e =>
        if !e.isFile then fi
        else if !hasAudioExt e.filename then fi
        else
          match extract_artist_title_comprehensive e.metadata e.filename with
          | [] => fi
          | ss => fi ++ [(e.filename, ss)]) acc,
      ∀ s ∈ e.2, s.2.1 ≠ [] ∧ s.2.2 ≠ [] := by
  intro entries
  induction entries with
  | nil =>
    intro acc hacc e he
    rw [List.foldl_nil] at he
    exact hacc e he
  | cons a rest ih =>
    intro acc hacc
    rw [List.foldl_cons]
    apply ih
    by_cases h1 : (!a.isFile) = true
    · rw [if_pos h1]
      exact hacc
    · rw [if_neg h1]
      by_cases h2 : (!hasAudioExt a.filename) = true
      · rw [if_pos h2]
        exact hacc
      · rw [if_neg h2]
        rcases hx : extract_artist_title_comprehensive a.metadata a.filename with
          - | ⟨s0, ss⟩
        · exact hacc
        · intro e he s hs
          rcases List.mem_append.mp he with he | he
          · exact hacc e he s hs
          · have hee : e = (a.filename, s0 :: ss) := List.mem_singleton.mp he
            subst hee
            exact extract_fields_nonempty a.metadata a.filename s (by rw [hx]; exact hs)

theorem addBucket_keys : ∀ (rev : RevIndex) (k : Str × Str) (f : Str),
    (∀ e ∈ rev, e.1.1 ≠ [] ∧ e.1.2 ≠ []) → (k.1 ≠ [] ∧ k.2 ≠ []) →
    ∀ e ∈ addBucket rev k f, e.1.1 ≠ [] ∧ e.1.2 ≠ [] := by
  intro rev
  induction rev with
  | nil =>
    intro k f _ hk e he
    have : e = (k, [f]) := List.mem_singleton.mp he
    subst this
    exact hk
  | cons b rest ih =>
    intro k f hrev hk e he
    obtain ⟨k0, fs⟩ := b
    by_cases h0 : k0 = k
    · rw [show addBucket ((k0, fs) :: rest) k f = (k0, fs ++ [f]) :: rest by
        simp [addBucket, h0]] at he
      rcases List.mem_cons.mp he with he | he
      · subst he
        exact hrev (k0, fs) (List.mem_cons_self _ _)
      · exact hrev e (List.mem_cons_of_mem _ he)
    · rw [show addBucket ((k0, fs) :: rest) k f = (k0, fs) :: addBucket rest k f by
        simp [addBucket, h0]] at he
      rcases List.mem_cons.mp he with he | he
      · subst he
        exact hrev (k0, fs) (List.mem_cons_self _ _)
      · exact ih k f (fun x hx => hrev x (List.mem_cons_of_mem _ hx)) hk e he

theorem innerFold_keys : ∀ (ss : List Interp) (f : Str) (rev : RevIndex),
    (∀ e ∈ rev, e.1.1 ≠ [] ∧ e.1.2 ≠ []) →
    (∀ s ∈ ss, s.2.1 ≠ [] ∧ s.2.2 ≠ []) →
    ∀ e ∈ ss.foldl (fun r s => addBucket r (s.2.1, s.2.2) f) rev,
      e.1.1 ≠ [] ∧ e.1.2 ≠ [] := by
  intro ss
  induction ss with
  | nil =>
    intro f rev hrev _ e he
    rw [List.foldl_nil] at he
    exact hrev e he
  | cons s rest ih =>
    intro f rev hrev hss e he
    rw [List.foldl_cons] at he
    exact ih f (addBucket rev (s.2.1, s.2.2) f)
      (addBucket_keys rev (s.2.1, s.2.2) f hrev (hss s (List.mem_cons_self _ _)))
      (fun x hx => hss x (List.mem_cons_of_mem _ hx)) e he

theorem buildReverse_fold_keys : ∀ (fi : FileIndex) (rev : RevIndex),
    (∀ e ∈ rev, e.1.1 ≠ [] ∧ e.1.2 ≠ []) →
    (∀ e ∈ fi, ∀ s ∈ e.2, s.2.1 ≠ [] ∧ s.2.2 ≠ []) →
    ∀ e ∈ fi.foldl
        (fun r x => x.2.foldl (fun r' s => addBucket r' (s.2.1, s.2.2) x.1) r) rev,
      e.1.1 ≠ [] ∧ e.1.2 ≠ [] := by
  intro fi
  induction fi with
  | nil =>
    intro rev hrev _ e he
    rw [List.foldl_nil] at he
    exact hrev e he
  | cons x rest ih =>
    intro rev hrev hfi e he
    rw [List.foldl_cons] at he
    exact ih _ (innerFold_keys x.2 x.1 rev hrev (hfi x (List.mem_cons_self _ _)))
      (fun y hy => hfi y (List.mem_cons_of_mem _ hy)) e he

/-- C8: every interpretation stored in the file index and every key of
the derived reverse index has non-empty canonical artist and title. -/
theorem c8_stored_interpretations_nonempty (listing : Option (List FileEntry)) :
    indexFieldsNonEmpty (build_smart_index listing) = true := by
  cases listing with
  | none => rfl
  | some entries =>
    have hfi : ∀ e ∈ buildFileIndex entries, ∀ s ∈ e.2, s.2.1 ≠ [] ∧ s.2.2 ≠ [] :=
      buildFileIndex_mem entries [] (fun e he => absurd he (List.not_mem_nil e))
    have hrev : ∀ e ∈ buildReverse (buildFileIndex entries),
        e.1.1 ≠ [] ∧ e.1.2 ≠ [] :=
      buildReverse_fold_keys (buildFileIndex entries) []
        (fun e he => absurd he (List.not_mem_nil e)) hfi
    show indexFieldsNonEmpty
      (.ok (buildFileIndex entries, buildReverse (buildFileIndex entries))) = true
    unfold indexFieldsNonEmpty
    rw [Bool.and_eq_true]
    constructor
    · rw [List.all_eq_true]
      intro e he
      rw [List.all_eq_true]
      intro s hs
      obtain ⟨ha, ht⟩ := hfi e he s hs
      have h1 : s.2.1.isEmpty = false := by
        cases hcs : s.2.1 with
        | nil => exact absurd hcs ha
        | cons c cs => rfl
      have h2 : s.2.2.isEmpty = false := by
        cases hcs : s.2.2 with
        | nil => exact absurd hcs ht
        | cons c cs => rfl
      rw [h1, h2]
      rfl
    · rw [List.all_eq_true]
      intro e he
      obtain ⟨ha, ht⟩ := hrev e he
      have h1 : e.1.1.isEmpty = false := by
        cases hcs : e.1.1 with
        | nil => exact absurd hcs ha
        | cons c cs => rfl
      have h2 : e.1.2.isEmpty = false := by
        cases hcs : e.1.2 with
        | nil => exact absurd hcs ht
        | cons c cs => rfl
      rw [h1, h2]
      rfl

/-! ## C4: the canonical output alphabet -/

/-- C4 (counterexample): the canonical alphabet is not limited to
`a-z0-9_`, CJK and space — the Latin-1 letter é is a Python word
character and survives cleaning untouched. -/
theorem c4_output_alphabet_counterexample :
    deep_clean_text ("é".data) = ("é".data) ∧
      (deep_clean_text ("é".data)).all claimedCanonicalChar = false := by
  decide

theorem isUpperAscii_pyLower (c : Char) : isUpperAscii (pyLower c) = false := by
  unfold pyLower
  by_cases h1 : 'A' ≤ c ∧ c ≤ 'Z'
  · rw [if_pos h1]
    have h65 : 65 ≤ c.toNat := h1.1
    have h90 : c.toNat ≤ 90 := h1.2
    have hvalid : (c.toNat + 32).isValidChar := Or.inl (by omega)
    have hv : (Char.ofNat (c.toNat + 32)).toNat = c.toNat + 32 := by
      rw [Char.ofNat, dif_pos hvalid]
      rfl
    unfold isUpperAscii
    apply Bool.eq_false_iff.mpr
    intro habs
    rw [Bool.and_eq_true, decide_eq_true_eq, decide_eq_true_eq] at habs
    have hle : (Char.ofNat (c.toNat + 32)).toNat ≤ 90 := habs.2
    omega
  · rw [if_neg h1]
    by_cases h2 : 0xC0 ≤ c.val ∧ c.val ≤ 0xDE ∧ c.val ≠ 0xD7
    · rw [if_pos h2]
      have hlow : 0xC0 ≤ c.toNat := h2.1
      have hhi : c.toNat ≤ 0xDE := h2.2.1
      have hvalid : (c.toNat + 32).isValidChar := Or.inl (by omega)
      have hv : (Char.ofNat (c.toNat + 32)).toNat = c.toNat + 32 := by
        rw [Char.ofNat, dif_pos hvalid]
        rfl
      unfold isUpperAscii
      apply Bool.eq_false_iff.mpr
      intro habs
      rw [Bool.and_eq_true, decide_eq_true_eq, decide_eq_true_eq] at habs
      have hle : (Char.ofNat (c.toNat + 32)).toNat ≤ 90 := habs.2
      omega
    · rw [if_neg h2]
      unfold isUpperAscii
      apply Bool.eq_false_iff.mpr
      intro habs
      rw [Bool.and_eq_true, decide_eq_true_eq, decide_eq_true_eq] at habs
      exact h1 habs

theorem mem_collapseAux : ∀ (l : Str) (b : Bool) (c : Char),
    c ∈ collapseAux b l → c = ' ' ∨ (c ∈ l ∧ pyIsSpace c = false) := by
  intro l
  induction l with
  | nil => intro b c hc; cases hc
  | cons d cs ih =>
    intro b c hc
    by_cases hd : pyIsSpace d = true
    · rw [show collapseAux b (d :: cs) =
          (if b then collapseAux true cs else ' ' :: collapseAux true cs) by
        simp [collapseAux, hd]] at hc
      cases b with
      | true =>
        rw [if_pos rfl] at hc
        rcases ih true c hc with h | ⟨h1, h2⟩
        · exact Or.inl h
        · exact Or.inr ⟨List.mem_cons_of_mem d h1, h2⟩
      | false =>
        rw [if_neg (by simp)] at hc
        rcases List.mem_cons.mp hc with h | h
        · exact Or.inl h
        · rcases ih true c h with h | ⟨h1, h2⟩
          · exact Or.inl h
          · exact Or.inr ⟨List.mem_cons_of_mem d h1, h2⟩
    · rw [show collapseAux b (d :: cs) = d :: collapseAux false cs by
        simp [collapseAux, hd]] at hc
      rcases List.mem_cons.mp hc with h | h
      · subst h
        exact Or.inr ⟨List.mem_cons_self _ _, Bool.eq_false_iff.mpr hd⟩
      · rcases ih false c h with h | ⟨h1, h2⟩
        · exact Or.inl h
        · exact Or.inr ⟨List.mem_cons_of_mem d h1, h2⟩

theorem mem_dropTrailingWS : ∀ (l : Str) (c : Char),
    c ∈ dropTrailingWS l → c ∈ l := by
  intro l
  induction l with
  | nil => intro c hc; cases hc
  | cons d cs ih =>
    intro c hc
    unfold dropTrailingWS at hc
    by_cases h : dropTrailingWS cs = [] ∧ pyIsSpace d = true
    · rw [if_pos h] at hc
      cases hc
    · rw [if_neg h] at hc
      rcases List.mem_cons.mp hc with h | h
      · subst h
        exact List.mem_cons_self _ _
      · exact List.mem_cons_of_mem d (ih c h)

theorem mem_pyStrip (l : Str) (c : Char) : c ∈ pyStrip l → c ∈ l := by
  intro hc
  exact (List.dropWhile_sublist pyIsSpace :
    (l.dropWhile pyIsSpace).Sublist l).subset (mem_dropTrailingWS _ c hc)

theorem mem_cleanupChars (l : Str) (c : Char) :
    c ∈ cleanupChars l →
      (pyIsWordChar c || pyIsCJK c || pyIsSpace c) = true ∧ (c = ' ' ∨ c ∈ l) := by
  intro hc
  rw [cleanupChars, List.mem_map] at hc
  obtain ⟨d, hd, he⟩ := hc
  by_cases ha : (pyIsWordChar d || pyIsCJK d || pyIsSpace d) = true
  · rw [if_pos ha] at he
    subst he
    exact ⟨ha, Or.inr hd⟩
  · rw [if_neg ha] at he
    subst he
    exact ⟨by decide, Or.inl rfl⟩

theorem mem_removeBracketsFuel : ∀ (fuel : Nat) (l : Str) (c : Char),
    c ∈ removeBracketsFuel fuel l → c ∈ l := by
  intro fuel
  induction fuel with
  | zero =>
    intro l c hc
    cases l <;> simp [removeBracketsFuel] at hc
  | succ n ih =>
    intro l c hc
    cases l with
    | nil => cases hc
    | cons d cs =>
      unfold removeBracketsFuel at hc
      by_cases ho : isOpener d = true
      · rw [if_pos ho] at hc
        rcases hf : findCloser cs with - | i
        · rw [hf] at hc
          rcases List.mem_cons.mp hc with h | h
          · subst h; exact List.mem_cons_self _ _
          · exact List.mem_cons_of_mem d (ih cs c h)
        · rw [hf] at hc
          exact List.mem_cons_of_mem d
            (List.mem_of_mem_drop (ih (cs.drop (i + 1)) c hc))
      · rw [if_neg ho] at hc
        rcases List.mem_cons.mp hc with h | h
        · subst h; exact List.mem_cons_self _ _
        · exact List.mem_cons_of_mem d (ih cs c h)

theorem mem_subMarkerFuel (p : Char) (ps : Str) : ∀ (fuel : Nat)
    (prev : Option Char) (l : Str) (c : Char),
    c ∈ subMarkerFuel p ps fuel prev l → c ∈ l := by
  intro fuel
  induction fuel with
  | zero =>
    intro prev l c hc
    cases l <;> simp [subMarkerFuel] at hc
  | succ n ih =>
    intro prev l c hc
    cases l with
    | nil => cases hc
    | cons d cs =>
      unfold subMarkerFuel at hc
      by_cases hm : markerHere (p :: ps) prev (d :: cs) = true
      · rw [if_pos hm] at hc
        exact List.mem_cons_of_mem d
          (List.mem_of_mem_drop (ih _ (cs.drop ps.length) c hc))
      · rw [if_neg hm] at hc
        rcases List.mem_cons.mp hc with h | h
        · subst h; exact List.mem_cons_self _ _
        · exact List.mem_cons_of_mem d (ih (some d) cs c h)

theorem mem_removeMarkers_fold : ∀ (pats : List Str) (t : Str) (c : Char),
    c ∈ pats.foldl (fun t pat =>
      match pat with
      | [] => t
      | p :: ps => subMarker p ps none t) t → c ∈ t := by
  intro pats
  induction pats with
  | nil => intro t c hc; exact hc
  | cons pat rest ih =>
    intro t c hc
    rw [List.foldl_cons] at hc
    have := ih _ c hc
    cases pat with
    | nil => exact this
    | cons p ps => exact mem_subMarkerFuel p ps _ none t c this

theorem mem_removeMarkers (l : Str) (c : Char) : c ∈ removeMarkers l → c ∈ l :=
  mem_removeMarkers_fold version_markers l c

theorem singleSpaced_tail : ∀ (a : Char) (l : Str),
    singleSpaced (a :: l) = true → singleSpaced l = true := by
  intro a l h
  cases l with
  | nil => rfl
  | cons b t =>
    rw [show singleSpaced (a :: b :: t) =
        (!(decide (a = ' ') && decide (b = ' ')) && singleSpaced (b :: t)) from rfl,
      Bool.and_eq_true] at h
    exact h.2

theorem singleSpaced_head : ∀ (a : Char) (l : Str),
    singleSpaced (a :: l) = true → ¬(a = ' ' ∧ l.head? = some ' ') := by
  intro a l h hcon
  cases l with
  | nil => exact Option.noConfusion hcon.2
  | cons b t =>
    rw [show singleSpaced (a :: b :: t) =
        (!(decide (a = ' ') && decide (b = ' ')) && singleSpaced (b :: t)) from rfl,
      Bool.and_eq_true] at h
    have hb : b = ' ' := Option.some_inj.mp hcon.2
    rw [hcon.1, hb] at h
    simp at h

theorem singleSpaced_cons_of : ∀ (a : Char) (l : Str),
    singleSpaced l = true → ¬(a = ' ' ∧ l.head? = some ' ') →
    singleSpaced (a :: l) = true := by
  intro a l hl hna
  cases l with
  | nil => rfl
  | cons b t =>
    rw [show singleSpaced (a :: b :: t) =
        (!(decide (a = ' ') && decide (b = ' ')) && singleSpaced (b :: t)) from rfl,
      Bool.and_eq_true]
    refine ⟨?_, hl⟩
    by_cases ha : a = ' '
    · by_cases hb : b = ' '
      · exact absurd ⟨ha, by rw [hb]; rfl⟩ hna
      · simp [ha, hb]
    · simp [ha]

theorem head_collapseAux_true : ∀ (l : Str) (x : Char),
    (collapseAux true l).head? = some x → pyIsSpace x = false := by
  intro l
  induction l with
  | nil => intro x h; exact Option.noConfusion h
  | cons d cs ih =>
    intro x h
    by_cases hd : pyIsSpace d = true
    · rw [show collapseAux true (d :: cs) = collapseAux true cs by
        simp [collapseAux, hd]] at h
      exact ih x h
    · rw [show collapseAux true (d :: cs) = d :: collapseAux false cs by
        simp [collapseAux, hd]] at h
      rw [← Option.some_inj.mp h]
      exact Bool.eq_false_iff.mpr hd

theorem singleSpaced_collapseAux : ∀ (l : Str) (b : Bool),
    singleSpaced (collapseAux b l) = true := by
  intro l
  induction l with
  | nil => intro b; rfl
  | cons d cs ih =>
    intro b
    by_cases hd : pyIsSpace d = true
    · cases b with
      | true =>
        rw [show collapseAux true (d :: cs) = collapseAux true cs by
          simp [collapseAux, hd]]
        exact ih true
      | false =>
        rw [show collapseAux false (d :: cs) = ' ' :: collapseAux true cs by
          simp [collapseAux, hd]]
        apply singleSpaced_cons_of _ _ (ih true)
        rintro ⟨-, hh⟩
        have := head_collapseAux_true cs ' ' hh
        simp [pyIsSpace] at this
    · rw [show collapseAux b (d :: cs) = d :: collapseAux false cs by
        simp [collapseAux, hd]]
      apply singleSpaced_cons_of _ _ (ih false)
      rintro ⟨hd2, -⟩
      rw [hd2] at hd
      simp [pyIsSpace] at hd

theorem singleSpaced_dropWhile (p : Char → Bool) : ∀ (l : Str),
    singleSpaced l = true → singleSpaced (l.dropWhile p) = true := by
  intro l
  induction l with
  | nil => intro h; exact h
  | cons c cs ih =>
    intro h
    rw [List.dropWhile_cons]
    by_cases hc : p c = true
    · rw [if_pos hc]
      exact ih (singleSpaced_tail c cs h)
    · rw [if_neg hc]
      exact h

theorem head_dropTrailingWS : ∀ (l : Str) (x : Char) (t : Str),
    dropTrailingWS l = x :: t → l.head? = some x := by
  intro l x t h
  cases l with
  | nil => exact List.noConfusion h
  | cons d cs =>
    unfold dropTrailingWS at h
    by_cases hcond : dropTrailingWS cs = [] ∧ pyIsSpace d = true
    · rw [if_pos hcond] at h
      exact List.noConfusion h
    · rw [if_neg hcond] at h
      rw [show d = x from (List.cons.injEq d _ x t ▸ h).1]
      rfl

theorem singleSpaced_dropTrailingWS : ∀ (l : Str),
    singleSpaced l = true → singleSpaced (dropTrailingWS l) = true := by
  intro l
  induction l with
  | nil => intro h; exact h
  | cons d cs ih =>
    intro h
    unfold dropTrailingWS
    by_cases hcond : dropTrailingWS cs = [] ∧ pyIsSpace d = true
    · rw [if_pos hcond]
      rfl
    · rw [if_neg hcond]
      apply singleSpaced_cons_of _ _ (ih (singleSpaced_tail d cs h))
      rintro ⟨hd, hh⟩
      rcases hres : dropTrailingWS cs with - | ⟨x, t⟩
      · rw [hres] at hh
        exact Option.noConfusion hh
      · rw [hres] at hh
        have hx : x = ' ' := Option.some_inj.mp hh
        have hhead : cs.head? = some x := head_dropTrailingWS cs x t hres
        exact singleSpaced_head d cs h ⟨hd, by rw [hhead, hx]⟩

theorem getLast_dropTrailingWS : ∀ (l : Str) (x : Char),
    (dropTrailingWS l).getLast? = some x → pyIsSpace x = false := by
  intro l
  induction l with
  | nil => intro x h; exact Option.noConfusion h
  | cons d cs ih =>
    intro x h
    unfold dropTrailingWS at h
    by_cases hcond : dropTrailingWS cs = [] ∧ pyIsSpace d = true
    · rw [if_pos hcond] at h
      exact Option.noConfusion h
    · rw [if_neg hcond] at h
      rcases hres : dropTrailingWS cs with - | ⟨y, t⟩
      · rw [hres] at h
        rw [List.getLast?_singleton] at h
        have hx : x = d := (Option.some_inj.mp h).symm
        subst hx
        rw [not_and] at hcond
        exact Bool.eq_false_iff.mpr (hcond hres)
      · rw [hres, List.getLast?_cons_cons] at h
        rw [← hres] at h
        exact ih x h

theorem head_dropWhile_pyIsSpace : ∀ (l : Str) (x : Char),
    (l.dropWhile pyIsSpace).head? = some x → pyIsSpace x = false := by
  intro l
  induction l with
  | nil => intro x h; exact Option.noConfusion h
  | cons c cs ih =>
    intro x h
    rw [List.dropWhile_cons] at h
    by_cases hc : pyIsSpace c = true
    · rw [if_pos hc] at h
      exact ih x h
    · rw [if_neg hc] at h
      rw [← Option.some_inj.mp h]
      exact Bool.eq_false_iff.mpr hc

/-- Assembled well-formedness of `pyStrip (collapseWS X)` for any `X`
whose characters are word/CJK/whitespace and not ASCII upper case. -/
theorem wellFormed_strip_collapse (X : Str)
    (hall : ∀ c ∈ X,
      (pyIsWordChar c || pyIsCJK c || pyIsSpace c) = true ∧ isUpperAscii c = false) :
    wellFormedCanonical (pyStrip (collapseWS X)) = true := by
  unfold wellFormedCanonical pyStrip
  have hmem : ∀ c ∈ dropTrailingWS ((collapseWS X).dropWhile pyIsSpace),
      c = ' ' ∨ (c ∈ X ∧ pyIsSpace c = false) := by
    intro c hc
    have h1 : c ∈ collapseWS X :=
      (List.dropWhile_sublist pyIsSpace :
        ((collapseWS X).dropWhile pyIsSpace).Sublist (collapseWS X)).subset
        (mem_dropTrailingWS _ c hc)
    exact mem_collapseAux X false c h1
  rw [Bool.and_eq_true, Bool.and_eq_true, Bool.and_eq_true]
  refine ⟨⟨⟨?_, ?_⟩, ?_⟩, ?_⟩
  · rw [List.all_eq_true]
    intro c hc
    unfold allowedCanonicalChar
    rcases hmem c hc with h | ⟨h1, h2⟩
    · subst h
      decide
    · obtain ⟨ha, hu⟩ := hall c h1
      rw [Bool.and_eq_true]
      refine ⟨?_, by rw [hu]; rfl⟩
      rcases Bool.or_eq_true_iff.mp ha with h | h
      · rcases Bool.or_eq_true_iff.mp h with h | h
        · rw [h]
          rfl
        · rw [h]
          simp
      · rw [h] at h2
        exact Bool.noConfusion h2
  · exact singleSpaced_dropTrailingWS _
      (singleSpaced_dropWhile pyIsSpace _ (singleSpaced_collapseAux X false))
  · rcases hres : (dropTrailingWS ((collapseWS X).dropWhile pyIsSpace)).head?
      with - | x
    · rfl
    · have hx : pyIsSpace x = false := by
        rcases hl : dropTrailingWS ((collapseWS X).dropWhile pyIsSpace)
          with - | ⟨y, t⟩
        · rw [hl] at hres
          exact Option.noConfusion hres
        · rw [hl] at hres
          have hxy : y = x := Option.some_inj.mp hres
          subst hxy
          exact head_dropWhile_pyIsSpace _ y (head_dropTrailingWS _ y t hl)
      have hne : x ≠ ' ' := by
        intro hx2
        rw [hx2] at hx
        simp [pyIsSpace] at hx
      simp [hne]
  · rcases hres : (dropTrailingWS ((collapseWS X).dropWhile pyIsSpace)).getLast?
      with - | x
    · rfl
    · have hx : pyIsSpace x = false := getLast_dropTrailingWS _ x hres
      have hne : x ≠ ' ' := by
        intro hx2
        rw [hx2] at hx
        simp [pyIsSpace] at hx
      simp [hne]

/-- C4 (amended): the canonical output consists only of word characters
(of any modelled script, never ASCII upper case), CJK ideographs and
single spaces, with no leading, trailing or doubled space. -/
theorem c4_amended_canonical_output_well_formed (s : Str) :
    wellFormedCanonical (deep_clean_text s) = true := by
  by_cases hs : s = []
  · subst hs
    decide
  · unfold deep_clean_text
    rw [if_neg hs]
    apply wellFormed_strip_collapse
    intro c hc
    obtain ⟨ha, hor⟩ := mem_cleanupChars _ c hc
    refine ⟨ha, ?_⟩
    rcases hor with h | h
    · subst h
      decide
    · have h2 := mem_removeMarkers _ c h
      have h3 := mem_removeBracketsFuel _ _ c h2
      have h4 := mem_pyStrip _ c h3
      rw [List.mem_map] at h4
      obtain ⟨d, -, hd⟩ := h4
      rw [← hd]
      exact isUpperAscii_pyLower d

end FindDiffentSong
